import Mathlib

/-!
Verification of the comment semantic-segmentation and reflow engine of the
swift-docstrings VS Code extension.  The TypeScript sources
(`src/commentCommands.ts`, `src/decorator.ts`, `src/capsLabel.ts`) are shallowly
embedded below: strings become `List Char`, regular-expression matches become
the deterministic parsers they denote, and the stateful per-line loops become
fuel-indexed structural recursions (the fuel is always at least the number of
remaining positions, so it never runs out on the actual calls).
-/

set_option maxRecDepth 20000

namespace SwiftDocstrings

/-- Strings of the embedded program are lists of characters. -/
abbrev Str := List Char

/-- Character class of the JavaScript regular-expression `\s` (whitespace). -/
def jsIsWs (c : Char) : Bool :=
  c = ' ' || c = '\t' || c = '\n' || c = Char.ofNat 11 || c = Char.ofNat 12 ||
  c = '\r' || c = Char.ofNat 0xa0 || c = Char.ofNat 0x1680 ||
  (Char.ofNat 0x2000 ≤ c && c ≤ Char.ofNat 0x200a) ||
  c = Char.ofNat 0x2028 || c = Char.ofNat 0x2029 || c = Char.ofNat 0x202f ||
  c = Char.ofNat 0x205f || c = Char.ofNat 0x3000 || c = Char.ofNat 0xfeff

/-- Line-terminator characters, which the JavaScript regular-expression `.` never matches. -/
def jsIsLineTerm (c : Char) : Bool :=
  c = '\n' || c = '\r' || c = Char.ofNat 0x2028 || c = Char.ofNat 0x2029

/-- ASCII letter (JS `[A-Za-z]`). -/
def isAsciiLetter (c : Char) : Bool :=
  ('A' ≤ c && c ≤ 'Z') || ('a' ≤ c && c ≤ 'z')

/-- ASCII uppercase letter (JS `[A-Z]`). -/
def isAsciiUpper (c : Char) : Bool := 'A' ≤ c && c ≤ 'Z'

/-- ASCII digit (JS `\d`). -/
def isAsciiDigit (c : Char) : Bool := '0' ≤ c && c ≤ '9'

/-- JS `\w`: ASCII letters, digits and underscore. -/
def isJsWord (c : Char) : Bool := isAsciiLetter c || isAsciiDigit c || c = '_'

/-- ASCII lower-casing of one character (`String.prototype.toLowerCase` on the
ASCII fragment, which is all the sources apply it to). -/
def asciiLower (c : Char) : Char :=
  if isAsciiUpper c then Char.ofNat (c.toNat + 32) else c

/-- ASCII upper-casing of one character. -/
def asciiUpper (c : Char) : Char :=
  if 'a' ≤ c && c ≤ 'z' then Char.ofNat (c.toNat - 32) else c

/-- JS `String.prototype.trimStart` (drops leading `\s`). -/
def jsTrimStart (s : Str) : Str := s.dropWhile jsIsWs

/-- JS `String.prototype.trimEnd` (drops trailing `\s`). -/
def jsTrimEnd (s : Str) : Str := (s.reverse.dropWhile jsIsWs).reverse

/-- JS `String.prototype.trim`. -/
def jsTrim (s : Str) : Str := jsTrimEnd (jsTrimStart s)

/-- Helper for `wsTokens`: accumulates the current token in reverse. -/
def wsTokensAux : Str → Str → List Str
  | acc, [] => if acc.isEmpty then [] else [acc.reverse]
  | acc, c :: cs =>
    if jsIsWs c then
      if acc.isEmpty then wsTokensAux [] cs else acc.reverse :: wsTokensAux [] cs
    else wsTokensAux (c :: acc) cs

/-- JS `text.split(/\s+/).filter(Boolean)`: the maximal whitespace-free tokens. -/
def wsTokens (s : Str) : List Str := wsTokensAux [] s

/-- Join a list of strings with single spaces (JS `Array.prototype.join(' ')`). -/
def joinSpace : List Str → Str
  | [] => []
  | [s] => s
  | s :: t :: rest => s ++ ' ' :: joinSpace (t :: rest)

/-- Repeat a space `n` times (JS `' '.repeat(n)`). -/
def spaces (n : Nat) : Str := List.replicate n ' '

/-- The backtick character (written via its code point). -/
def backtick : Char := Char.ofNat 96

/-! ## Embedding of `src/commentCommands.ts` -/

/-- `ReplaceEdit` of `commentCommands.ts` (`endLine` inclusive). -/
structure ReplaceEdit where
  startLine : Nat
  endLine : Nat
  text : Str
deriving DecidableEq, Repr

/-- `InsertEdit` of `commentCommands.ts`. -/
structure InsertEdit where
  line : Nat
  character : Nat
  text : Str
deriving DecidableEq, Repr

/-- The `CommentPrefix` union type: `'//'` or `'///'`. -/
inductive Pfx
  | line
  | doc
deriving DecidableEq, Repr

/-- The characters of a comment marker. -/
def Pfx.toStr : Pfx → Str
  | .line => ['/', '/']
  | .doc => ['/', '/', '/']

/-- The length of a comment marker (`prefix.length` in the source). -/
def Pfx.len : Pfx → Nat
  | .line => 2
  | .doc => 3

/-- `CommentLineParts` of `commentCommands.ts`. -/
structure CommentLineParts where
  indent : Str
  pfx : Pfx
  afterPfx : Str
  originalLine : Str
deriving DecidableEq, Repr

/-- `MIN_WRAP_LINE_LENGTH` (as an integer, used by the width clamp). -/
def MIN_WRAP_LINE_LENGTH : ℤ := 40

/-- Characters `firstNonWhitespaceIndex` skips (the source checks only space and tab). -/
def isSpaceOrTab (c : Char) : Bool := c = ' ' || c = '\t'

/-- `firstNonWhitespaceIndex` of `commentCommands.ts`. -/
def firstNonWhitespaceIndex (s : Str) : Option Nat :=
  if (s.dropWhile isSpaceOrTab).isEmpty then none
  else some (s.takeWhile isSpaceOrTab).length

/-- `parseCommentLine` of `commentCommands.ts`. -/
def parseCommentLine (line : Str) : Option CommentLineParts :=
  match firstNonWhitespaceIndex line with
  | none => none
  | some col =>
    if ['/', '/', '/'].isPrefixOf (line.drop col) &&
        ¬ (['/', '/', '/', '/'].isPrefixOf (line.drop col)) then
      some ⟨line.take col, .doc, line.drop (col + 3), line⟩
    else if ['/', '/'].isPrefixOf (line.drop col) &&
        ¬ (['/', '/', '/'].isPrefixOf (line.drop col)) then
      some ⟨line.take col, .line, line.drop (col + 2), line⟩
    else none

/-- `computeConvertLineCommentsToDocCommentInserts` of `commentCommands.ts`. -/
def computeConvertLineCommentsToDocCommentInserts (lines : List Str) : List InsertEdit :=
  lines.enum.filterMap (fun il =>
    match firstNonWhitespaceIndex il.2 with
    | none => none
    | some col =>
      let rest := il.2.drop col
      if ['/', '/'].isPrefixOf rest && ¬ (['/', '/', '/'].isPrefixOf rest) then
        some ⟨il.1, col + 2, ['/']⟩
      else none)

/-- The result of `tryParseDocTagLine` (the `DocTagMatch` record of the spec). -/
structure DocTagMatch where
  keywordPrefixText : Str
  listPrefixText : Str
  description : Str
  tagWordLower : Str
deriving DecidableEq, Repr

/-- The capture of the JS `(.*)` group: everything up to the first line terminator. -/
def dotStar (s : Str) : Str := s.takeWhile (fun c => ¬ jsIsLineTerm c)

/-- Deterministic parse of `docTagSingleParamRegex = /^(\s*-\s+)(Parameter)(\s+)(\w+)(\s*:\s*)(.*)/i`. -/
def parseDocTagSingleParam (s : Str) : Option DocTagMatch :=
  let ws1 := s.takeWhile jsIsWs
  match s.dropWhile jsIsWs with
  | '-' :: r2 =>
    let ws2 := r2.takeWhile jsIsWs
    let r3 := r2.dropWhile jsIsWs
    if ws2.isEmpty then none
    else
      let kw := r3.take 9
      if kw.map asciiLower = "parameter".toList then
        let r4 := r3.drop 9
        let ws3 := r4.takeWhile jsIsWs
        let r5 := r4.dropWhile jsIsWs
        if ws3.isEmpty then none
        else
          let nm := r5.takeWhile isJsWord
          let r6 := r5.dropWhile isJsWord
          if nm.isEmpty then none
          else
            let ws4 := r6.takeWhile jsIsWs
            match r6.dropWhile jsIsWs with
            | ':' :: r8 =>
              let ws5 := r8.takeWhile jsIsWs
              let desc := dotStar (r8.dropWhile jsIsWs)
              some ⟨ws1 ++ '-' :: ws2 ++ kw ++ ws3 ++ nm ++ ws4 ++ ':' :: ws5,
                    ws1 ++ '-' :: ws2, desc, kw.map asciiLower⟩
            | _ => none
      else none
  | _ => none

/-- Deterministic parse of `docTagLineRegex = /^(\s*-\s+)(\w+)(\s*:\s*)(.*)/`. -/
def parseDocTagKeywordLine (s : Str) : Option DocTagMatch :=
  let ws1 := s.takeWhile jsIsWs
  match s.dropWhile jsIsWs with
  | '-' :: r2 =>
    let ws2 := r2.takeWhile jsIsWs
    let r3 := r2.dropWhile jsIsWs
    if ws2.isEmpty then none
    else
      let word := r3.takeWhile isJsWord
      let r4 := r3.dropWhile isJsWord
      if word.isEmpty then none
      else
        let ws3 := r4.takeWhile jsIsWs
        match r4.dropWhile jsIsWs with
        | ':' :: r5 =>
          let ws4 := r5.takeWhile jsIsWs
          let desc := dotStar (r5.dropWhile jsIsWs)
          some ⟨ws1 ++ '-' :: ws2 ++ word ++ ws3 ++ ':' :: ws4,
                ws1 ++ '-' :: ws2, desc, word.map asciiLower⟩
        | _ => none
  | _ => none

/-- `tryParseDocTagLine` of `commentCommands.ts` (single-parameter form first). -/
def tryParseDocTagLine (afterPfx : Str) : Option DocTagMatch :=
  match parseDocTagSingleParam afterPfx with
  | some m => some m
  | none => parseDocTagKeywordLine afterPfx

/-- `KNOWN_DOC_TAGS` of `commentCommands.ts`. -/
def KNOWN_DOC_TAGS : List Str :=
  ["attention", "author", "authors", "bug", "complexity", "copyright", "date",
   "experiment", "important", "invariant", "note", "parameter", "parameters",
   "postcondition", "precondition", "remark", "remarks", "requires", "returns",
   "seealso", "since", "tag", "throws", "todo", "version", "warning"].map String.toList

/-- `normalizeDocTagKeywordPrefixText` of `commentCommands.ts`. -/
def normalizeDocTagKeywordPrefixText (t : Str) : Str :=
  match t with
  | [] => []
  | c :: _ => if jsIsWs c then ' ' :: jsTrimStart t else t

/-- `isFenceLine` of `commentCommands.ts`. -/
def isFenceLine (afterPfxTrimStart : Str) : Bool :=
  [backtick, backtick, backtick].isPrefixOf afterPfxTrimStart

/-- Deterministic form of the directive regex
`/^(swiftlint(?::|\b)|swiftformat(?::|\b)|clang-format\b|sourcery:)/i`. -/
def isDirectiveLine (s : Str) : Bool :=
  let ls := s.map asciiLower
  let colonOrBoundary : Nat → Bool := fun n =>
    match s.get? n with
    | none => true
    | some c => c = ':' || ¬ isJsWord c
  ("swiftlint".toList.isPrefixOf ls && colonOrBoundary 9) ||
  ("swiftformat".toList.isPrefixOf ls && colonOrBoundary 11) ||
  ("clang-format".toList.isPrefixOf ls &&
    (match s.get? 12 with | none => true | some c => ¬ isJsWord c)) ||
  "sourcery:".toList.isPrefixOf ls

/-- Does the string contain four consecutive characters from `-`/`=`
(the regex `/[-=]{4,}/`)? -/
def hasDashEqRun4 : Str → Bool
  | a :: b :: c :: d :: rest =>
    (let p : Char → Bool := fun x => x = '-' || x = '=';
     p a && p b && p c && p d) || hasDashEqRun4 (b :: c :: d :: rest)
  | _ => false

/-- `isTableOrAsciiArtLine` of `commentCommands.ts`. -/
def isTableOrAsciiArtLine (s : Str) : Bool :=
  decide (s.countP (fun c => c = '|') ≥ 2) || hasDashEqRun4 s

/-- The test of `listBulletRegex = /^(\s*)([-*+])\s+/`. -/
def testListBullet (s : Str) : Bool :=
  match s.dropWhile jsIsWs with
  | c :: rest => (c = '-' || c = '*' || c = '+') && ¬ (rest.takeWhile jsIsWs).isEmpty
  | [] => false

/-- The test of `listNumberRegex = /^(\s*)(\d+)([.)])\s+/`. -/
def testListNumber (s : Str) : Bool :=
  let r := s.dropWhile jsIsWs
  let digits := r.takeWhile isAsciiDigit
  ¬ digits.isEmpty &&
    (match r.dropWhile isAsciiDigit with
     | c :: rest => (c = '.' || c = ')') && ¬ (rest.takeWhile jsIsWs).isEmpty
     | [] => false)

/-- `isMarkdownListItem` of `commentCommands.ts`. -/
def isMarkdownListItem (s : Str) : Bool := testListBullet s || testListNumber s

/-- Sentence-closing characters accepted after the punctuation (`) ] " '`). -/
def isCloserChar (c : Char) : Bool := c = ')' || c = ']' || c = '"' || c = '\''

/-- The `endsWithSentencePunctuation` helper of `wrapCommentBlock`
(the test `/[.!?][)\]"']*$/` on the trailing-trimmed text). -/
def endsWithSentencePunctuation (text : Str) : Bool :=
  let t := jsTrimEnd text
  match t.reverse.dropWhile isCloserChar with
  | c :: _ => c = '.' || c = '!' || c = '?'
  | [] => false

/-- `wrapWords`, inner loop: `current` is the line being accumulated. -/
def wrapWordsGo (width : Nat) : Str → List Str → List Str
  | current, [] => [current]
  | current, t :: ts =>
    if current.length + 1 + t.length ≤ width then
      wrapWordsGo width (current ++ ' ' :: t) ts
    else current :: wrapWordsGo width t ts

/-- `wrapWords` of `commentCommands.ts` (the callers always pass a positive
integer, so `Math.floor` is the identity here). -/
def wrapWords (text : Str) (maxWidth : Nat) : List Str :=
  let width := max 1 maxWidth
  match wsTokens text with
  | [] => [[]]
  | t :: ts => wrapWordsGo width t ts

/-! ## Embedding of `src/capsLabel.ts` -/

/-- `CapsLabelMatch` of `capsLabel.ts`. -/
structure CapsLabelMatch where
  labelStart : Nat
  labelEnd : Nat
  colonIndex : Nat
  labelText : Str
deriving DecidableEq, Repr

/-- Index of the first occurrence of `c` at or after `start` (JS `indexOf(c, start)`). -/
def idxOfFrom (s : Str) (c : Char) (start : Nat) : Option Nat :=
  match (s.drop start).findIdx? (fun x => x = c) with
  | some k => some (start + k)
  | none => none

/-- The test of `/^[A-Z0-9_]+(?:[ \t]+[A-Z0-9_]+)*$/`: space/tab-separated all-caps words. -/
def capsLabelShapeOk (cand : Str) : Bool :=
  let wordChar : Char → Bool := fun c => isAsciiUpper c || isAsciiDigit c || c = '_'
  ¬ cand.isEmpty &&
  cand.all (fun c => wordChar c || c = ' ' || c = '\t') &&
  (match cand.head? with | some c => wordChar c | none => false) &&
  (match cand.getLast? with | some c => wordChar c | none => false)

/-- `findLeadingCapsLabel` of `capsLabel.ts`. -/
def findLeadingCapsLabel (afterPfx : Str) : Option CapsLabelMatch :=
  let labelStart := (afterPfx.takeWhile jsIsWs).length
  if labelStart ≥ afterPfx.length then none
  else
    match idxOfFrom afterPfx ':' labelStart with
    | none => none
    | some colonIndex =>
      let seg := (afterPfx.take colonIndex).drop labelStart
      let cand := (seg.reverse.dropWhile jsIsWs).reverse
      let labelEnd := labelStart + cand.length
      if labelEnd ≤ labelStart then none
      else if ¬ cand.any isAsciiUpper then none
      else if ¬ capsLabelShapeOk cand then none
      else some ⟨labelStart, labelEnd, colonIndex, cand⟩

/-- `DocColonHeadingMatch` of `capsLabel.ts`. -/
structure DocColonHeadingMatch where
  headingStart : Nat
  headingEnd : Nat
  colonIndex : Nat
  headingText : Str
deriving DecidableEq, Repr

/-- The test of `/^[A-Za-z0-9_]+(?:[ \t]+[A-Za-z0-9_]+)*$/`. -/
def headingShapeOk (cand : Str) : Bool :=
  ¬ cand.isEmpty &&
  cand.all (fun c => isJsWord c || c = ' ' || c = '\t') &&
  (match cand.head? with | some c => isJsWord c | none => false) &&
  (match cand.getLast? with | some c => isJsWord c | none => false)

/-- `findDocColonHeading` of `capsLabel.ts`. -/
def findDocColonHeading (afterPfx : Str) : Option DocColonHeadingMatch :=
  let headingStart := (afterPfx.takeWhile jsIsWs).length
  if headingStart ≥ afterPfx.length then none
  else
    let tail1 := afterPfx.drop headingStart
    let endTrim := headingStart + ((tail1.reverse.dropWhile jsIsWs).reverse).length
    if endTrim ≤ headingStart then none
    else
      match afterPfx.get? (endTrim - 1) with
      | some ':' =>
        let colonIndex := endTrim - 1
        let seg := (afterPfx.take colonIndex).drop headingStart
        let cand := (seg.reverse.dropWhile jsIsWs).reverse
        let headingEnd := headingStart + cand.length
        if headingEnd ≤ headingStart then none
        else if ¬ headingShapeOk cand then none
        else some ⟨headingStart, headingEnd, colonIndex, cand⟩
      | _ => none

/-! ## The reflow engine (`wrapCommentBlock` and its loop) -/

/-- The `flushParagraph` closure of `wrapCommentBlock`: trims and joins the
buffered fragments, wraps them, and re-attaches indent and comment marker. -/
def flushParaLines (indent : Str) (pfx : Pfx) (maxLineLength : Nat) (wcfs : Bool)
    (para : List Str) : List Str :=
  if para.isEmpty then []
  else
    let availableWidth := max 1 (maxLineLength - ((if wcfs then 0 else indent.length) + pfx.len + 1))
    let joined := joinSpace ((para.map jsTrim).filter (fun p => ¬ p.isEmpty))
    (wrapWords joined availableWidth).map (fun l =>
      if l.isEmpty then indent ++ pfx.toStr else indent ++ pfx.toStr ++ ' ' :: l)

/-- The continuation-consuming inner loop of the doc-tag branch (`j`-loop of
`wrapCommentBlock`): returns the consumed trimmed fragments and the unconsumed
remainder of the block. -/
def consumeDocTagCont (rawDescPad renderedDescPad rawListPad renderedListPadAlt : Str) :
    List CommentLineParts → (List Str × List CommentLineParts)
  | [] => ([], [])
  | next :: rest =>
    let nextAfter := next.afterPfx
    if (jsTrim nextAfter).isEmpty then ([], next :: rest)
    else
      let nextAfterTrimStart := jsTrimStart nextAfter
      if isFenceLine nextAfterTrimStart then ([], next :: rest)
      else if isDirectiveLine nextAfterTrimStart || isTableOrAsciiArtLine nextAfterTrimStart then
        ([], next :: rest)
      else if isMarkdownListItem nextAfterTrimStart then ([], next :: rest)
      else
        let matched :=
          if rawDescPad.isPrefixOf nextAfter then some rawDescPad
          else if renderedDescPad.isPrefixOf nextAfter then some renderedDescPad
          else if rawListPad.isPrefixOf nextAfter then some rawListPad
          else if renderedListPadAlt.isPrefixOf nextAfter then some renderedListPadAlt
          else none
        match matched with
        | none => ([], next :: rest)
        | some m =>
          let remainder := nextAfter.drop m.length
          if (jsTrim remainder).isEmpty then ([], next :: rest)
          else
            let p := consumeDocTagCont rawDescPad renderedDescPad rawListPad renderedListPadAlt rest
            (jsTrim remainder :: p.1, p.2)

/-- The lines emitted by the doc-tag branch together with the unconsumed
remainder of the block. -/
def docTagEmit (indent : Str) (pfx : Pfx) (maxLineLength : Nat) (wcfs : Bool)
    (dt : DocTagMatch) (rest : List CommentLineParts) : List Str × List CommentLineParts :=
  let shouldNorm := KNOWN_DOC_TAGS.contains dt.tagWordLower
  let renderedKw :=
    if shouldNorm then normalizeDocTagKeywordPrefixText dt.keywordPrefixText
    else dt.keywordPrefixText
  let renderedList :=
    if shouldNorm then normalizeDocTagKeywordPrefixText dt.listPrefixText
    else dt.listPrefixText
  let renderedListContPad := spaces renderedList.length
  let rawDescContPad := spaces dt.keywordPrefixText.length
  let renderedDescContPad := spaces renderedKw.length
  let rawListContPad := spaces dt.listPrefixText.length
  let renderedListContPadAlt := spaces renderedList.length
  let descParts0 :=
    if ¬ (jsTrim dt.description).isEmpty then [jsTrim dt.description] else []
  let consumed := consumeDocTagCont rawDescContPad renderedDescContPad rawListContPad
    renderedListContPadAlt rest
  let fullDesc := jsTrim (joinSpace (descParts0 ++ consumed.1))
  let availableWidth := max 1 (maxLineLength -
    ((if wcfs then 0 else indent.length) + pfx.len + renderedKw.length))
  let wrappedDesc := if ¬ fullDesc.isEmpty then wrapWords fullDesc availableWidth else [[]]
  let emitted :=
    match wrappedDesc with
    | [] => [indent ++ pfx.toStr ++ jsTrimEnd renderedKw]
    | firstLine :: k =>
      (indent ++ pfx.toStr ++ renderedKw ++ firstLine) ::
        k.map (fun l => indent ++ pfx.toStr ++ renderedListContPad ++ l)
  (emitted, consumed.2)

/-- The main loop of `wrapCommentBlock`, with explicit fence/list/paragraph
state; `fuel` bounds the number of iterations (the list shrinks by at least one
element per step, so any fuel at least the list length is enough). -/
def wrapGo (indent : Str) (pfx : Pfx) (maxLineLength : Nat) (wcfs avoid : Bool) :
    Nat → Bool → Bool → List Str → List CommentLineParts → List Str
  | _, _, _, para, [] => flushParaLines indent pfx maxLineLength wcfs para
  | 0, _, _, _, _ :: _ => []
  | fuel + 1, inFence, listMode, para, p :: rest =>
    if inFence then
      p.originalLine ::
        wrapGo indent pfx maxLineLength wcfs avoid fuel
          (!isFenceLine (jsTrimStart p.afterPfx)) listMode para rest
    else if isFenceLine (jsTrimStart p.afterPfx) then
      flushParaLines indent pfx maxLineLength wcfs para ++ p.originalLine ::
        wrapGo indent pfx maxLineLength wcfs avoid fuel true false [] rest
    else if (jsTrim p.afterPfx).isEmpty then
      flushParaLines indent pfx maxLineLength wcfs para ++ (indent ++ pfx.toStr) ::
        wrapGo indent pfx maxLineLength wcfs avoid fuel false false [] rest
    else if isDirectiveLine (jsTrimStart p.afterPfx) ||
        isTableOrAsciiArtLine (jsTrimStart p.afterPfx) then
      flushParaLines indent pfx maxLineLength wcfs para ++ p.originalLine ::
        wrapGo indent pfx maxLineLength wcfs avoid fuel false false [] rest
    else
      match (if pfx = Pfx.doc then tryParseDocTagLine p.afterPfx else none) with
      | some dt =>
        flushParaLines indent pfx maxLineLength wcfs para ++
          (docTagEmit indent pfx maxLineLength wcfs dt rest).1 ++
          wrapGo indent pfx maxLineLength wcfs avoid fuel false false []
            (docTagEmit indent pfx maxLineLength wcfs dt rest).2
      | none =>
        if pfx = Pfx.doc && !isMarkdownListItem (jsTrimStart p.afterPfx) &&
            (findDocColonHeading p.afterPfx).isSome then
          flushParaLines indent pfx maxLineLength wcfs para ++ p.originalLine ::
            wrapGo indent pfx maxLineLength wcfs avoid fuel false false [] rest
        else
          -- a leading caps label flushes the paragraph and leaves list mode,
          -- then processing of the same line continues
          if isMarkdownListItem (jsTrimStart p.afterPfx) then
            (if (findLeadingCapsLabel p.afterPfx).isSome then
              flushParaLines indent pfx maxLineLength wcfs para else []) ++
            flushParaLines indent pfx maxLineLength wcfs
              (if (findLeadingCapsLabel p.afterPfx).isSome then [] else para) ++
            p.originalLine ::
              wrapGo indent pfx maxLineLength wcfs avoid fuel false true [] rest
          else if (if (findLeadingCapsLabel p.afterPfx).isSome then false else listMode) then
            (if (findLeadingCapsLabel p.afterPfx).isSome then
              flushParaLines indent pfx maxLineLength wcfs para else []) ++
            p.originalLine ::
              wrapGo indent pfx maxLineLength wcfs avoid fuel false true
                (if (findLeadingCapsLabel p.afterPfx).isSome then [] else para) rest
          else if avoid &&
              (match (if (findLeadingCapsLabel p.afterPfx).isSome then [] else para).getLast? with
               | some lastFrag => endsWithSentencePunctuation lastFrag
               | none => false) then
            (if (findLeadingCapsLabel p.afterPfx).isSome then
              flushParaLines indent pfx maxLineLength wcfs para else []) ++
            flushParaLines indent pfx maxLineLength wcfs
              (if (findLeadingCapsLabel p.afterPfx).isSome then [] else para) ++
            wrapGo indent pfx maxLineLength wcfs avoid fuel false false
              [match p.afterPfx with | ' ' :: t => t | _ => p.afterPfx] rest
          else
            (if (findLeadingCapsLabel p.afterPfx).isSome then
              flushParaLines indent pfx maxLineLength wcfs para else []) ++
            wrapGo indent pfx maxLineLength wcfs avoid fuel false
              (if (findLeadingCapsLabel p.afterPfx).isSome then false else listMode)
              ((if (findLeadingCapsLabel p.afterPfx).isSome then [] else para) ++
                [match p.afterPfx with | ' ' :: t => t | _ => p.afterPfx]) rest

/-- `wrapCommentBlock` of `commentCommands.ts`. -/
def wrapCommentBlock (blockLines : List Str) (maxLineLength : Nat)
    (wcfs avoid : Bool) : List Str :=
  match blockLines.mapM parseCommentLine with
  | none => blockLines
  | some [] => []
  | some (first :: others) =>
    wrapGo first.indent first.pfx maxLineLength wcfs avoid blockLines.length false false []
      (first :: others)

/-! ## `computeWrapCommentsReplaceEdits` -/

/-- The `eol` parameter type `'\n' | '\r\n'`. -/
inductive Eol
  | lf
  | crlf
deriving DecidableEq, Repr

/-- The characters of an end-of-line marker. -/
def Eol.toStr : Eol → Str
  | .lf => ['\n']
  | .crlf => ['\r', '\n']

/-- A JavaScript number as received from configuration: a finite value,
`NaN`, or `undefined` (missing). -/
inductive JsNum
  | nan
  | undef
  | num (q : ℚ)

/-- JS `maxLineLength || 0` (falsy values, `NaN` included, become `0`). -/
def jsOrZero : JsNum → ℚ
  | .nan => 0
  | .undef => 0
  | .num q => if q = 0 then 0 else q

/-- The width clamp of `computeWrapCommentsReplaceEdits`:
`Math.max(MIN_WRAP_LINE_LENGTH, Math.floor(maxLineLength || 0) || 0)`.
The inner `|| 0` maps a zero floor to zero, which is the identity here. -/
def clampWidth (w : JsNum) : Nat :=
  (max MIN_WRAP_LINE_LENGTH (⌊jsOrZero w⌋ : ℤ)).toNat

/-- The block-extension loop: takes the remaining lines of the current block
(same comment marker and identical indent) and returns them with the rest. -/
def takeBlockAux (pfx : Pfx) (indent : Str) : List Str → (List Str × List Str)
  | [] => ([], [])
  | l :: ls =>
    match parseCommentLine l with
    | some parts =>
      if parts.pfx = pfx && parts.indent = indent then
        let p := takeBlockAux pfx indent ls
        (l :: p.1, p.2)
      else ([], l :: ls)
    | none => ([], l :: ls)

/-- The outer loop of `computeWrapCommentsReplaceEdits`; `idx` is the index of
the first remaining line. -/
def cwGo (maxLineLength : Nat) (eol : Eol) (wcfs avoid : Bool) :
    Nat → Nat → List Str → List ReplaceEdit
  | _, _, [] => []
  | 0, _, _ :: _ => []
  | fuel + 1, idx, l :: ls =>
    match parseCommentLine l with
    | none => cwGo maxLineLength eol wcfs avoid fuel (idx + 1) ls
    | some firstParts =>
      let p := takeBlockAux firstParts.pfx firstParts.indent ls
      let blockLines := l :: p.1
      let wrapped := wrapCommentBlock blockLines maxLineLength wcfs avoid
      (if wrapped = blockLines then []
       else [ReplaceEdit.mk idx (idx + blockLines.length - 1)
         (List.intercalate eol.toStr wrapped)]) ++
        cwGo maxLineLength eol wcfs avoid fuel (idx + blockLines.length) p.2

/-- `computeWrapCommentsReplaceEdits` of `commentCommands.ts`. -/
def computeWrapCommentsReplaceEdits (lines : List Str) (maxLineLength : JsNum) (eol : Eol)
    (wrapCountFromCommentStart avoidWrappingAtPunctuationBreaks : Bool) : List ReplaceEdit :=
  cwGo (clampWidth maxLineLength) eol wrapCountFromCommentStart
    avoidWrappingAtPunctuationBreaks lines.length 0 lines

/-- Split a text on an end-of-line marker (`'\r\n'` case). -/
def splitCrlfAux : Str → Str → List Str
  | acc, [] => [acc.reverse]
  | acc, '\r' :: '\n' :: rest => acc.reverse :: splitCrlfAux [] rest
  | acc, c :: rest => splitCrlfAux (c :: acc) rest

/-- Split a text on an end-of-line marker (JS `text.split(eol)`). -/
def Eol.split : Eol → Str → List Str
  | .lf, s => s.splitOn '\n'
  | .crlf, s => splitCrlfAux [] s

/-- Apply a list of non-overlapping, ascending `ReplaceEdit`s to a line list
(later edits are applied first so earlier line indices stay valid, as an editor
applying a batch of edits does). -/
def applyReplaceEdits (eol : Eol) (lines : List Str) : List ReplaceEdit → List Str
  | [] => lines
  | e :: rest =>
    let l2 := applyReplaceEdits eol lines rest
    l2.take e.startLine ++ Eol.split eol e.text ++ l2.drop (e.endLine + 1)

/-! ## The MARK title-case transform -/

/-- `MINOR_WORDS` of `titleCaseMarkTextSegment` (the source set lists `for` twice;
set membership is unaffected). -/
def MINOR_WORDS : List Str :=
  ["a", "an", "the", "and", "but", "or", "nor", "for", "so", "yet", "as", "at", "by",
   "for", "from", "in", "into", "of", "on", "onto", "over", "per", "to", "up", "via",
   "vs", "vs.", "with"].map String.toList

/-- Deterministic parse of `/^([^A-Za-z]*)([A-Za-z][A-Za-z']*)([^A-Za-z]*)$/`:
leading non-letters, a letter/apostrophe core starting with a letter, and a
letter-free tail. -/
def wordTokenParse (token : Str) : Option (Str × Str × Str) :=
  let lead := token.takeWhile (fun c => ¬ isAsciiLetter c)
  match token.dropWhile (fun c => ¬ isAsciiLetter c) with
  | [] => none
  | c :: rest =>
    let core := c :: rest.takeWhile (fun x => isAsciiLetter x || x = '\'')
    let tail := rest.dropWhile (fun x => isAsciiLetter x || x = '\'')
    if tail.any isAsciiLetter then none else some (lead, core, tail)

/-- Deterministic parse of `/^([^A-Za-z]*)([A-Za-z][A-Za-z'-]*)([^A-Za-z]*)$/`
(the hyphenated-token variant). -/
def hyphenTokenParse (token : Str) : Option (Str × Str × Str) :=
  let lead := token.takeWhile (fun c => ¬ isAsciiLetter c)
  match token.dropWhile (fun c => ¬ isAsciiLetter c) with
  | [] => none
  | c :: rest =>
    let core := c :: rest.takeWhile (fun x => isAsciiLetter x || x = '\'' || x = '-')
    let tail := rest.dropWhile (fun x => isAsciiLetter x || x = '\'' || x = '-')
    if tail.any isAsciiLetter then none else some (lead, core, tail)

/-- The `core.split(/(-)/)` loop of `titleCaseMarkToken` capitalizes only the
first hyphen segment, which amounts to upper-casing the first character. -/
def capitalizeFirstChar : Str → Str
  | [] => []
  | c :: rest => asciiUpper c :: rest

/-- `titleCaseMarkToken` of `commentCommands.ts`. -/
def titleCaseMarkToken (token : Str) (minorWords : List Str)
    (isFirstWord isLastWord : Bool) : Str :=
  if token.contains '_' || token.any isAsciiDigit then token
  else if token.contains '-' then
    match hyphenTokenParse token with
    | none => token
    | some (lead, core, tail) =>
      if ¬ (core = core.map asciiLower) then
        if lead.contains '@' && core.map asciiLower = "unchecked".toList then
          lead ++ "unchecked".toList ++ tail
        else token
      else lead ++ capitalizeFirstChar core ++ tail
  else
    match wordTokenParse token with
    | none => token
    | some (lead, word, tail) =>
      if ¬ (word = word.map asciiLower) then
        if lead.contains '@' && word.map asciiLower = "unchecked".toList then
          lead ++ "unchecked".toList ++ tail
        else token
      else if lead.contains '@' && word = "unchecked".toList then
        lead ++ word ++ tail
      else if ¬ isFirstWord && ¬ isLastWord && minorWords.contains word then
        lead ++ word ++ tail
      else lead ++ capitalizeFirstChar word ++ tail

/-- Maximal runs of a string, each tagged by whether its characters satisfy `p`. -/
def splitRunsAux (p : Char → Bool) : Option (Bool × Str) → Str → List Str
  | none, [] => []
  | some cur, [] => [cur.2.reverse]
  | cur, c :: cs =>
    let b := p c
    match cur with
    | none => splitRunsAux p (some (b, [c])) cs
    | some cur' =>
      if b = cur'.1 then splitRunsAux p (some (cur'.1, c :: cur'.2)) cs
      else cur'.2.reverse :: splitRunsAux p (some (b, [c])) cs

/-- JS `segment.split(/(\s+)/)`: pieces interleaved with the whitespace
separators, with empty pieces at a whitespace start/end. -/
def splitKeepWs (s : Str) : List Str :=
  let startsWs : Str → Bool := fun r =>
    match r.head? with
    | some c => jsIsWs c
    | none => false
  let runs := splitRunsAux jsIsWs none s
  let runs1 :=
    match runs with
    | [] => ([[]] : List Str)
    | r :: _ => if startsWs r then [] :: runs else runs
  match runs1.getLast? with
  | some r => if startsWs r then runs1 ++ [[]] else runs1
  | none => runs1

/-- `titleCaseMarkTextSegment` of `commentCommands.ts`. -/
def titleCaseMarkTextSegment (segment : Str) : Str :=
  let parts := splitKeepWs segment
  let wordIdxs := (parts.enum.filter (fun ie =>
    ¬ ie.2.isEmpty && ¬ ie.2.all jsIsWs && (wordTokenParse ie.2).isSome)).map (fun ie => ie.1)
  (parts.enum.map (fun ie =>
    let piece := ie.2
    if piece.isEmpty then piece
    else if piece.all jsIsWs then piece
    else titleCaseMarkToken piece MINOR_WORDS
      (decide (wordIdxs.head? = some ie.1)) (decide (wordIdxs.getLast? = some ie.1)))).flatten

/-- `titleCaseMarkTitlePreservingBackticks`, main loop: `acc` is the reversed
current segment, `inB` the backtick flag. -/
def titleCasePBAux : Bool → Str → Str → Str
  | inB, acc, [] =>
    if acc.isEmpty then [] else if inB then acc.reverse else titleCaseMarkTextSegment acc.reverse
  | inB, acc, c :: cs =>
    if c = backtick then
      (if acc.isEmpty then [] else
        if inB then acc.reverse else titleCaseMarkTextSegment acc.reverse) ++
        backtick :: titleCasePBAux (¬ inB) [] cs
    else titleCasePBAux inB (c :: acc) cs

/-- `titleCaseMarkTitlePreservingBackticks` of `commentCommands.ts`. -/
def titleCaseMarkTitlePreservingBackticks (input : Str) : Str :=
  if input.isEmpty then input else titleCasePBAux false [] input

/-- Deterministic parse of `markLineRegex = /^(\s*)(\/\/)(\s*MARK:(?=\s|$|-).*)$/`:
returns the leading whitespace and everything after `//`. -/
def parseMarkLine (line : Str) : Option (Str × Str) :=
  let ws := line.takeWhile jsIsWs
  match line.dropWhile jsIsWs with
  | '/' :: '/' :: rest =>
    let r2 := rest.dropWhile jsIsWs
    if "MARK:".toList.isPrefixOf r2 then
      let after5 := r2.drop 5
      let look :=
        match after5.head? with
        | none => true
        | some c => jsIsWs c || c = '-'
      if look && after5.all (fun c => ¬ jsIsLineTerm c) then some (ws, rest) else none
    else none
  | _ => none

/-- `computeTitleCaseMarkCommentsReplaceEdits` of `commentCommands.ts`. -/
def computeTitleCaseMarkCommentsReplaceEdits (lines : List Str) (eol : Eol) :
    List ReplaceEdit :=
  lines.enum.filterMap (fun il =>
    let line := il.2
    match parseMarkLine line with
    | none => none
    | some (indent, afterSlashes) =>
      let markIndex := (afterSlashes.takeWhile jsIsWs).length
      let afterColonIndex := markIndex + 5
      let afterColon := afterSlashes.drop afterColonIndex
      -- `dashMatch = /^\s*-\s*/.exec(afterColon)`
      let dashStr :=
        let dws1 := afterColon.takeWhile jsIsWs
        match afterColon.dropWhile jsIsWs with
        | '-' :: r => dws1 ++ '-' :: r.takeWhile jsIsWs
        | _ => []
      let titleWithLeadingSpace := afterColon.drop dashStr.length
      let leadingSpace := titleWithLeadingSpace.takeWhile jsIsWs
      let titleCoreWithTrailingSpace := titleWithLeadingSpace.drop leadingSpace.length
      let trailingSpace := (titleCoreWithTrailingSpace.reverse.takeWhile jsIsWs).reverse
      let titleCore := titleCoreWithTrailingSpace.take
        (titleCoreWithTrailingSpace.length - trailingSpace.length)
      let titleCoreCased := titleCaseMarkTitlePreservingBackticks titleCore
      let rebuiltAfterSlashes := afterSlashes.take afterColonIndex ++ dashStr ++
        leadingSpace ++ titleCoreCased ++ trailingSpace
      let rebuiltLine := indent ++ '/' :: '/' :: rebuiltAfterSlashes
      if rebuiltLine = line then none
      else some (ReplaceEdit.mk il.1 il.1
        (List.intercalate eol.toStr (rebuiltLine.splitOn '\n'))))

/-! ## Embedding of `src/decorator.ts`: the Swift comment-start scanner -/

/-- The scanner state of `findSwiftLineCommentStart`. -/
structure ScanState where
  inString : Bool
  rawHashes : Nat
  isTripleQuote : Bool
deriving DecidableEq, Repr

/-- The initial scanner state. -/
def scanInit : ScanState := ⟨false, 0, false⟩

/-- The `h` local of `findSwiftLineCommentStart`: the length of the `#` run
at position `i`. -/
def hashRunLen (text : Str) (i : Nat) : Nat :=
  ((text.drop i).takeWhile (fun x => x = '#')).length

/-- The `isTripleQuote` test of `findSwiftLineCommentStart`: do three double
quotes start at position `i`? -/
def tripleAt (text : Str) (i : Nat) : Bool :=
  (text.drop i).take 3 = ['"', '"', '"']

/-- One iteration of the `findSwiftLineCommentStart` loop at position `i`
(the guard `i < text.length - 1` holds): either the function returns (`inl`)
or the scan continues at the next position and state (`inr`; the `+ 1` of the
`for` increment is included).  The raw-string branch falls through to the
plain-quote and `//` checks when no quote follows the `#` run, which the
`else` chain reproduces because a fall-through character `#` matches none of
the later tests. -/
def scanStep (text : Str) (i : Nat) (st : ScanState) : Sum Nat (Nat × ScanState) :=
  match text.get? i with
  | none => .inr (i + 1, st)
  | some c =>
    if ¬ st.inString then
      if c = '#' ∧ text.get? (i + hashRunLen text i) = some '"' then
        .inr (i + hashRunLen text i +
            (if tripleAt text (i + hashRunLen text i) then 2 else 0) + 1,
          ⟨true, hashRunLen text i, tripleAt text (i + hashRunLen text i)⟩)
      else if c = '"' then
        .inr (i + (if tripleAt text i then 2 else 0) + 1, ⟨true, 0, tripleAt text i⟩)
      else if c = '/' ∧ text.get? (i + 1) = some '/' then .inl i
      else .inr (i + 1, st)
    else
      if st.rawHashes = 0 ∧ c = '\\' then .inr (i + 2, st)
      else if st.isTripleQuote then
        if tripleAt text i then
          if min st.rawHashes (hashRunLen text (i + 3)) = st.rawHashes then
            .inr (i + 3 + min st.rawHashes (hashRunLen text (i + 3)), scanInit)
          else .inr (i + 1, st)
        else .inr (i + 1, st)
      else
        if c = '"' then
          if min st.rawHashes (hashRunLen text (i + 1)) = st.rawHashes then
            .inr (i + 1 + min st.rawHashes (hashRunLen text (i + 1)), scanInit)
          else .inr (i + 1, st)
        else .inr (i + 1, st)

/-- The `findSwiftLineCommentStart` loop; `fuel` bounds the iterations (each
step advances the position by at least one, so `text.length + 1` is enough). -/
def findSwiftGo (text : Str) : Nat → Nat → ScanState → Option Nat
  | 0, _, _ => none
  | fuel + 1, i, st =>
    if i + 1 < text.length then
      match scanStep text i st with
      | .inl j => some j
      | .inr n => findSwiftGo text fuel n.1 n.2
    else none

/-- `findSwiftLineCommentStart` of `decorator.ts`. -/
def findSwiftLineCommentStart (text : Str) : Option Nat :=
  findSwiftGo text (text.length + 1) 0 scanInit

/-! ## Embedding of `src/decorator.ts`: inline tokenization -/

/-- A span `(line, startColumn, endColumn)` (the `vscode.Range` instances the
decorator builds always stay on one line). -/
structure Rng where
  line : Nat
  startCol : Nat
  endCol : Nat
deriving DecidableEq, Repr

/-- `InlineSegment` of `decorator.ts`. -/
structure InlineSegment where
  lineNum : Nat
  startCol : Nat
  text : Str
deriving DecidableEq, Repr

/-- `CommentTextSegment` of `decorator.ts`. -/
structure CommentTextSegment where
  lineNum : Nat
  baseCol : Nat
  text : Str
deriving DecidableEq, Repr

/-- `EmphasisMarker` of `decorator.ts`. -/
structure EmphasisMarker where
  marker : Str
  addsBold : Bool
  addsItalic : Bool
deriving DecidableEq, Repr

/-- `EmphasisKind` of `decorator.ts`. -/
inductive EmphasisKind
  | text
  | bold
  | italic
  | boldItalic
deriving DecidableEq, Repr

/-- `isEscapedAt`: an odd number of immediately preceding backslashes escapes. -/
def isEscapedAt (text : Str) (index : Nat) : Bool :=
  ((text.take index).reverse.takeWhile (fun c => c = '\\')).length % 2 = 1

/-- `currentEmphasisKind`: OR of the bold/italic contributions on the stack. -/
def currentEmphasisKind (stack : List EmphasisMarker) : EmphasisKind :=
  let bold := stack.any (fun m => m.addsBold)
  let italic := stack.any (fun m => m.addsItalic)
  if bold && italic then .boldItalic
  else if bold then .bold
  else if italic then .italic
  else .text

/-- The result of `matchEmphasisMarker`. -/
structure MarkerInfo where
  marker : Str
  length : Nat
  addsBold : Bool
  addsItalic : Bool
deriving DecidableEq, Repr

/-- `matchEmphasisMarker` of `tokenizeInlineSegments`: an unescaped run of one
to three identical `*`/`_` characters, with the underscore identifier
heuristic. -/
def matchEmphasisMarker (text : Str) (index : Nat) : Option MarkerInfo :=
  match text.get? index with
  | none => none
  | some ch =>
    if ¬ (ch = '*' || ch = '_') then none
    else if isEscapedAt text index then none
    else
      let maxLen := min 3 (text.length - index)
      let runLen := ((text.drop index).takeWhile (fun c => c = ch)).length
      let len := min maxLen runLen
      if len = 0 then none
      else
        let alnum : Char → Bool := fun c => isAsciiLetter c || isAsciiDigit c
        let prevIsWord :=
          match (if index = 0 then none else text.get? (index - 1)) with
          | some pc => alnum pc
          | none => false
        let nextIsWord :=
          match text.get? (index + len) with
          | some nc => alnum nc
          | none => false
        if ch = '_' && prevIsWord && nextIsWord then none
        else if len = 3 then some ⟨List.replicate 3 ch, 3, true, true⟩
        else if len = 2 then some ⟨List.replicate 2 ch, 2, true, false⟩
        else some ⟨[ch], 1, false, true⟩

/-- `toggleEmphasis` of `tokenizeInlineSegments`.  The head of the list is the
top of the stack (the source pushes/pops at the array's end). -/
def toggleEmphasis (m : MarkerInfo) (stack : List EmphasisMarker) : List EmphasisMarker :=
  match stack with
  | top :: rest =>
    if top.marker = m.marker then rest
    else ⟨m.marker, m.addsBold, m.addsItalic⟩ :: top :: rest
  | [] => [⟨m.marker, m.addsBold, m.addsItalic⟩]

/-- The six range arrays `tokenizeInlineSegments` populates. -/
structure TokenizeOut where
  textRanges : List Rng
  codeRanges : List Rng
  markdownMarkerRanges : List Rng
  boldRanges : List Rng
  italicRanges : List Rng
  boldItalicRanges : List Rng
deriving DecidableEq, Repr

/-- The empty output. -/
def TokenizeOut.empty : TokenizeOut := ⟨[], [], [], [], [], []⟩

/-- `pushNonEmpty` of `tokenizeInlineSegments`. -/
def pushNonEmpty (ranges : List Rng) (lineNum startCol endCol : Nat) : List Rng :=
  if startCol < endCol then ranges ++ [⟨lineNum, startCol, endCol⟩] else ranges

/-- `flushRun` of `tokenizeInlineSegments`: emits `[runStart, endEx)` of the
current segment as code or as the current emphasis kind. -/
def flushRun (out : TokenizeOut) (inCode : Bool) (stack : List EmphasisMarker)
    (lineNum startCol runStart endEx : Nat) : TokenizeOut :=
  if endEx ≤ runStart then out
  else
    let a := startCol + runStart
    let b := startCol + endEx
    if inCode then { out with codeRanges := pushNonEmpty out.codeRanges lineNum a b }
    else
      match currentEmphasisKind stack with
      | .boldItalic =>
        { out with boldItalicRanges := pushNonEmpty out.boldItalicRanges lineNum a b }
      | .bold => { out with boldRanges := pushNonEmpty out.boldRanges lineNum a b }
      | .italic => { out with italicRanges := pushNonEmpty out.italicRanges lineNum a b }
      | .text => { out with textRanges := pushNonEmpty out.textRanges lineNum a b }

/-- The per-segment scanning loop of `tokenizeInlineSegments` (`fuel` bounds
the iterations; every step advances `i` by at least one). -/
def tokenizeSegGo (text : Str) (lineNum startCol : Nat) :
    Nat → Nat → Nat → Bool → List EmphasisMarker → TokenizeOut →
    TokenizeOut × Bool × List EmphasisMarker
  | 0, _, _, inCode, stack, out => (out, inCode, stack)
  | fuel + 1, i, runStart, inCode, stack, out =>
    if i < text.length then
      match text.get? i with
      | none => (out, inCode, stack)
      | some ch =>
        if ch = backtick && ¬ isEscapedAt text i then
          let out1 := flushRun out inCode stack lineNum startCol runStart i
          let mm1 := pushNonEmpty out1.markdownMarkerRanges lineNum (startCol + i)
            (startCol + i + 1)
          let out2 := { out1 with markdownMarkerRanges := mm1 }
          tokenizeSegGo text lineNum startCol fuel (i + 1) (i + 1) (!inCode) stack out2
        else
          match (if ¬ inCode then matchEmphasisMarker text i else none) with
          | some mk =>
            let out1 := flushRun out inCode stack lineNum startCol runStart i
            let mm2 := pushNonEmpty out1.markdownMarkerRanges lineNum (startCol + i)
              (startCol + i + mk.length)
            let out2 := { out1 with markdownMarkerRanges := mm2 }
            tokenizeSegGo text lineNum startCol fuel (i + mk.length) (i + mk.length) inCode
              (toggleEmphasis mk stack) out2
          | none => tokenizeSegGo text lineNum startCol fuel (i + 1) runStart inCode stack out
    else (flushRun out inCode stack lineNum startCol runStart text.length, inCode, stack)

/-- `tokenizeInlineSegments` of `decorator.ts`: one code flag and one emphasis
stack across the whole segment list. -/
def tokenizeInlineSegments (segments : List InlineSegment) : TokenizeOut :=
  (segments.foldl
    (fun (st : TokenizeOut × Bool × List EmphasisMarker) seg =>
      if seg.text.isEmpty then st
      else tokenizeSegGo seg.text seg.lineNum seg.startCol (seg.text.length + 1) 0 0
        st.2.1 st.2.2 st.1)
    (TokenizeOut.empty, false, [])).1

/-! ## Embedding of `src/decorator.ts`: paired backtick extraction across segments -/

/-- The per-character test of the backtick extractor: an unescaped backtick at
position `i` (`ch === BACKTICK && !isEscapedAt(text, i)` in the source). -/
def isBtEventAt (text : Str) (i : Nat) : Bool :=
  (text.get? i = some backtick) && !(isEscapedAt text i)

/-- The per-segment loop of `extractBacktickInnerRangesAcrossSegments`.  State:
position `i`, `innerStart`, the open flag, the pending (uncommitted) ranges of
the currently open span, and the committed ranges. -/
def extractSegGo (text : Str) (lineNum baseCol : Nat) :
    Nat → Nat → Nat → Bool → List Rng → List Rng → Bool × List Rng × List Rng
  | 0, _, _, inB, pending, committed => (inB, pending, committed)
  | fuel + 1, i, innerStart, inB, pending, committed =>
    if i < text.length then
      if isBtEventAt text i then
        if ¬ inB then
          extractSegGo text lineNum baseCol fuel (i + 1) (i + 1) true [] committed
        else
          extractSegGo text lineNum baseCol fuel (i + 1) 0 false []
            (committed ++
              (if innerStart < i then
                pending ++ [Rng.mk lineNum (baseCol + innerStart) (baseCol + i)]
              else pending))
      else extractSegGo text lineNum baseCol fuel (i + 1) innerStart inB pending committed
    else
      if inB && innerStart < text.length then
        (true, pending ++ [Rng.mk lineNum (baseCol + innerStart) (baseCol + text.length)],
          committed)
      else (inB, pending, committed)

/-- Helper for `btEventsFrom`: the unescaped-backtick positions in
`[i, i + n)`, in increasing order. -/
def btEventsFromAux (text : Str) : Nat → Nat → List Nat
  | 0, _ => []
  | n + 1, i =>
    if isBtEventAt text i then i :: btEventsFromAux text n (i + 1)
    else btEventsFromAux text n (i + 1)

/-- The unescaped-backtick positions of `text` at or after `i`. -/
def btEventsFrom (text : Str) (i : Nat) : List Nat :=
  btEventsFromAux text (text.length - i) i

/-- The unescaped-backtick positions of `text`, in increasing order. -/
def btEvents (text : Str) : List Nat := btEventsFrom text 0

/-- The inner slices of consecutive unescaped-backtick pairs: the spec-level
description of the paired inline-code ranges of one segment.  Positions are
paired first-second, third-fourth, …; a trailing unmatched position
contributes nothing, and empty interiors are skipped. -/
def btPairSlices (ln base : Nat) : List Nat → List Rng
  | p :: q :: rest =>
    (if p + 1 < q then [Rng.mk ln (base + (p + 1)) (base + q)] else []) ++
      btPairSlices ln base rest
  | _ => []

/-- The end-of-segment carry of an open span starting at `s`. -/
def btCarry (ln base : Nat) (text : Str) (s : Nat) : List Rng :=
  if s < text.length then [Rng.mk ln (base + s) (base + text.length)] else []

/-- The final `(open flag, pending)` state after a closed-state scan whose
remaining unescaped-backtick positions are the given list: an even count
closes everything (pending resets to `[]`), an odd count leaves the span
opened at the last position pending, carrying its tail slice. -/
def btClosedFinal (ln base : Nat) (text : Str) : List Nat → Bool × List Rng
  | [] => (false, [])
  | [e] => (true, btCarry ln base text (e + 1))
  | _ :: _ :: rest => btClosedFinal ln base text rest

/-- The full result of scanning the rest of a segment from position `i` in the
closed state: final flag and pending from `btClosedFinal`, and the committed
ranges extended by the paired slices of the remaining events. -/
def btClosedResult (ln base : Nat) (text : Str) (i : Nat) (C : List Rng) :
    Bool × List Rng × List Rng :=
  ((btClosedFinal ln base text (btEventsFrom text i)).1,
   (btClosedFinal ln base text (btEventsFrom text i)).2,
   C ++ btPairSlices ln base (btEventsFrom text i))

/-- The full result of scanning the rest of a segment from position `i` in the
open state with inner start `s` and pending ranges `P`: with no further event
the open span carries to the segment end; otherwise the first event closes the
span (committing `P` plus the non-empty slice up to it) and the scan continues
closed. -/
def btOpenResult (ln base : Nat) (text : Str) (i s : Nat) (P C : List Rng) :
    Bool × List Rng × List Rng :=
  match btEventsFrom text i with
  | [] => (true, P ++ btCarry ln base text s, C)
  | e :: _ =>
    btClosedResult ln base text (e + 1)
      (C ++ (if s < e then P ++ [Rng.mk ln (base + s) (base + e)] else P))

/-- One segment's contribution to the cross-segment extraction state. -/
def extractSegStep (st : Bool × List Rng × List Rng) (seg : CommentTextSegment) :
    Bool × List Rng × List Rng :=
  if seg.text.isEmpty then st
  else extractSegGo seg.text seg.lineNum seg.baseCol (seg.text.length + 1) 0 0
    st.1 st.2.1 st.2.2

/-- `extractBacktickInnerRangesAcrossSegments` of `decorator.ts`: unclosed
spans remain pending and are discarded at the end. -/
def extractBacktickInnerRangesAcrossSegments (segments : List CommentTextSegment) :
    List Rng :=
  (segments.foldl extractSegStep (false, [], [])).2.2

/-! ## Plain-prose lines (used by the idempotence analysis) -/

/-- A comment text is a plain-prose line for the reflow engine: not a fence,
directive, table/ascii-art or list line, and (with the single leading space the
wrapper re-attaches) carrying no leading all-caps label. -/
def c1SafeLine (l : Str) : Bool :=
  !isFenceLine l && !isDirectiveLine l && !isTableOrAsciiArtLine l &&
    !isMarkdownListItem l && (findLeadingCapsLabel (' ' :: l)).isNone

/-- A `//` comment line with the given indent and text after the marker and a
single separating space — the exact shape the reflow engine emits for wrapped
paragraph lines. -/
def c1Line (ι fr : Str) : Str := ι ++ '/' :: '/' :: ' ' :: fr

/-- A concrete plain-prose token list for the idempotence witness. -/
def c1wts : List Str :=
  ["the", "quick", "brown", "fox", "jumps", "over", "the", "lazy", "dog"].map
    String.toList

/-! ## Scenario inputs and auxiliary relations for the claim theorems -/

/-- The C5 scenario input: a single `///` line whose content is `- Returns: `
followed by 120 characters of prose. -/
def c5input : Str :=
  ("/// - Returns: aaaa aaaa aaaa aaaa aaaa aaaa aaaa aaaa aaaa aaaa aaaa aaaa" ++
   " aaaa aaaa aaaa aaaa aaaa aaaa aaaa aaaa aaaa aaaa aaaa aaaaa").toList

/-- The replacement text the scenario produces. -/
def c5expected : Str :=
  ("/// - Returns: aaaa aaaa aaaa aaaa aaaa aaaa aaaa aaaa aaaa\n" ++
   "///   aaaa aaaa aaaa aaaa aaaa aaaa aaaa aaaa aaaa\n" ++
   "///   aaaa aaaa aaaa aaaa aaaa aaaaa").toList

/-- The C4 scenario segment. -/
def c4seg : InlineSegment := ⟨0, 0, "**bold *and italic* still bold**".toList⟩

/-- The C1 counterexample input: a doc-tag line whose description wraps so that
`- note:` lands at the start of a continuation line. -/
def c1input : List Str :=
  ["/// - Returns: aaaaaaaaaaaaaaaaaaaaaaaaa - note: xyz".toList]

/-- Whether a (comment) line is a fence line: its content after the comment
marker, trimmed at the start, begins with three backticks. -/
def lineIsFence (l : Str) : Bool :=
  match parseCommentLine l with
  | some parts => isFenceLine (jsTrimStart parts.afterPfx)
  | none => false

/-- One transition of the scanner: from configuration `a` (position, state),
the loop guard holds and the body continues to configuration `b`. -/
def ScanStepRel (text : Str) (a b : Nat × ScanState) : Prop :=
  a.1 + 1 < text.length ∧ scanStep text a.1 a.2 = Sum.inr b

/-- The configurations the scan actually visits from a given configuration. -/
def ScanReaches (text : Str) : Nat × ScanState → Nat × ScanState → Prop :=
  Relation.ReflTransGen (ScanStepRel text)

/-! # Claim theorems -/

/-! ## C9: width clamping -/

/-- C9: `computeWrapCommentsReplaceEdits` behaves, for every requested maximum
line length (finite, `NaN`, or missing), as if the width were
`max 40 (floor maxLineLength)`: the computation on any width equals the
computation on the already-clamped width, the clamp of a finite value `q` is
`max 40 ⌊q⌋`, and `NaN`/missing widths clamp to the floor value 40.  The
function is total, so no width makes it fail. -/
theorem C9_wrap_width_clamped :
    (∀ (lines : List Str) (w : JsNum) (eol : Eol) (f g : Bool),
      computeWrapCommentsReplaceEdits lines w eol f g =
        computeWrapCommentsReplaceEdits lines
          (JsNum.num ((max 40 ⌊jsOrZero w⌋ : ℤ) : ℚ)) eol f g) ∧
    (∀ q : ℚ, clampWidth (JsNum.num q) = (max 40 ⌊q⌋ : ℤ).toNat) ∧
    clampWidth JsNum.nan = 40 ∧ clampWidth JsNum.undef = 40 := by
  have hclamp : ∀ w : JsNum, clampWidth w = (max 40 ⌊jsOrZero w⌋ : ℤ).toNat := by
    intro w
    simp [clampWidth, MIN_WRAP_LINE_LENGTH]
  refine ⟨?_, ?_, by simp [clampWidth, MIN_WRAP_LINE_LENGTH, jsOrZero],
    by simp [clampWidth, MIN_WRAP_LINE_LENGTH, jsOrZero]⟩
  · intro lines w eol f g
    unfold computeWrapCommentsReplaceEdits
    set c : ℤ := max 40 ⌊jsOrZero w⌋ with hc
    have hc40 : 40 ≤ c := le_max_left _ _
    have hne : (c : ℚ) ≠ 0 := by
      simp only [ne_eq, Int.cast_eq_zero]
      omega
    have h1 : jsOrZero (JsNum.num (c : ℚ)) = (c : ℚ) := by simp [jsOrZero, hne]
    have h2 : clampWidth (JsNum.num (c : ℚ)) = clampWidth w := by
      rw [hclamp, hclamp, h1, Int.floor_intCast, hc]
      omega
    rw [h2]
  · intro q
    rw [hclamp]
    rcases eq_or_ne q 0 with h | h <;> simp [jsOrZero, h]

/-! ## C7: MARK title-casing examples -/

/-- C7: `computeTitleCaseMarkCommentsReplaceEdits` re-cases
`// MARK: - drag and drop` to `// MARK: - Drag and Drop` (the interior minor
word `and` stays lowercase while the first and last title words are
capitalized) and `// MARK: - @Unchecked Sendable` to
`// MARK: - @unchecked Sendable` (the `@unchecked` attribute is normalized to
lowercase and the already-uppercase `Sendable` is untouched). -/
theorem C7_title_case_mark_examples :
    computeTitleCaseMarkCommentsReplaceEdits ["// MARK: - drag and drop".toList] Eol.lf =
      [⟨0, 0, "// MARK: - Drag and Drop".toList⟩] ∧
    computeTitleCaseMarkCommentsReplaceEdits
        ["// MARK: - @Unchecked Sendable".toList] Eol.lf =
      [⟨0, 0, "// MARK: - @unchecked Sendable".toList⟩] := by
  constructor <;> decide

/-! ## C5: doc-tag wrapping scenario -/

/-- C5: wrapping the single doc line `/// - Returns: <120 characters of prose>`
at width 60 replaces it by three lines; the first keeps the `- Returns:`
keyword prefix, and every continuation line is indented by exactly three
spaces — the length of the list prefix `- ` with its leading space — rather
than by the full keyword-prefix length. -/
theorem C5_doc_tag_wrap_alignment :
    (c5input.drop 15).length = 120 ∧
    computeWrapCommentsReplaceEdits [c5input] (JsNum.num 60) Eol.lf false false =
      [⟨0, 0, c5expected⟩] ∧
    (Eol.lf.split c5expected).length = 3 ∧
    "/// - Returns:".toList.isPrefixOf ((Eol.lf.split c5expected).headD []) ∧
    ((Eol.lf.split c5expected).tail.all (fun l =>
      "///   ".toList.isPrefixOf l && ¬ ("///    ".toList.isPrefixOf l))) := by
  refine ⟨by decide, by decide, by decide, by decide, by decide⟩

/-! ## C4: emphasis nesting (corrected) -/

/-- C4 counterexample: the scenario `**bold *and italic* still bold**` does not
yield one bold span — the bold text around the italic section is emitted as two
separate bold spans. -/
theorem C4_one_bold_span_counterexample :
    ¬ ((tokenizeInlineSegments [c4seg]).boldRanges.length = 1) := by decide

/-- C4 (amended): tokenizing `**bold *and italic* still bold**` yields two bold
spans (before and after the italic section), one bold-italic span, the four
delimiter spans, and no plain-text gap; and in general an emphasis marker pops
the stack exactly when its marker string equals the topmost entry's marker
string, while a differently-shaped marker pushes (nests) on top instead. -/
theorem C4_emphasis_nesting :
    (tokenizeInlineSegments [c4seg] =
      { textRanges := [], codeRanges := [],
        markdownMarkerRanges := [⟨0, 0, 2⟩, ⟨0, 7, 8⟩, ⟨0, 18, 19⟩, ⟨0, 30, 32⟩],
        boldRanges := [⟨0, 2, 7⟩, ⟨0, 19, 30⟩], italicRanges := [],
        boldItalicRanges := [⟨0, 8, 18⟩] }) ∧
    (∀ (m : MarkerInfo) (top : EmphasisMarker) (rest : List EmphasisMarker),
      (top.marker = m.marker → toggleEmphasis m (top :: rest) = rest) ∧
      (top.marker ≠ m.marker →
        toggleEmphasis m (top :: rest) =
          ⟨m.marker, m.addsBold, m.addsItalic⟩ :: top :: rest)) := by
  constructor
  · decide
  · intro m top rest
    constructor
    · intro h
      simp [toggleEmphasis, h]
    · intro h
      simp [toggleEmphasis, h]

/-- Witness for C4: the toggle equations applied at concrete markers. -/
theorem C4_emphasis_nesting_witness :
    toggleEmphasis ⟨['*'], 1, false, true⟩ [⟨['*'], false, true⟩] = [] ∧
    toggleEmphasis ⟨['_'], 1, false, true⟩ [⟨['*'], false, true⟩] =
      [⟨['_'], false, true⟩, ⟨['*'], false, true⟩] :=
  ⟨(C4_emphasis_nesting.2 ⟨['*'], 1, false, true⟩ ⟨['*'], false, true⟩ []).1 rfl,
   (C4_emphasis_nesting.2 ⟨['_'], 1, false, true⟩ ⟨['*'], false, true⟩ []).2 (by decide)⟩

/-! ## C2: backtick pairing (corrected) -/

/-- C2 counterexample: in a `///` doc block, the inline tokenizer does emit an
inline-code span for content following an unterminated opening backtick — on
the segment `a + backtick + b` the character after the never-closed backtick is
emitted as the code span `(0, 3, 4)`. -/
theorem C2_unterminated_backtick_counterexample :
    (tokenizeInlineSegments [⟨0, 0, "a `b".toList⟩]).codeRanges = [⟨0, 3, 4⟩] ∧
    ¬ ((tokenizeInlineSegments [⟨0, 0, "a `b".toList⟩]).codeRanges = []) := by
  constructor <;> decide

/-- Past the end of the text there are no events. -/
theorem btEventsFrom_end (text : Str) (i : Nat) (h : text.length <= i) :
    btEventsFrom text i = [] := by
  unfold btEventsFrom
  rw [Nat.sub_eq_zero_of_le h]
  rfl

/-- One step of the event scan. -/
theorem btEventsFrom_step (text : Str) (i : Nat) (h : i < text.length) :
    btEventsFrom text i =
      if isBtEventAt text i then i :: btEventsFrom text (i + 1)
      else btEventsFrom text (i + 1) := by
  unfold btEventsFrom
  rw [show text.length - i = (text.length - (i + 1)) + 1 by omega]
  rfl

/-- The tail of the event list from `j` is the event list after its head. -/
theorem btEventsFrom_cons (text : Str) :
    forall (j e : Nat) (rest : List Nat), btEventsFrom text j = e :: rest ->
      rest = btEventsFrom text (e + 1) := by
  suffices h : forall (n j e : Nat) (rest : List Nat), text.length - j <= n ->
      btEventsFrom text j = e :: rest -> rest = btEventsFrom text (e + 1) by
    intro j e rest hj
    exact h (text.length - j) j e rest (le_refl _) hj
  intro n
  induction n with
  | zero =>
    intro j e rest hn hj
    rw [btEventsFrom_end text j (by omega)] at hj
    exact absurd hj (by simp)
  | succ n ih =>
    intro j e rest hn hj
    by_cases hjlen : j < text.length
    · rw [btEventsFrom_step text j hjlen] at hj
      by_cases hev : isBtEventAt text j
      · rw [if_pos hev] at hj
        injection hj with h1 h2
        rw [← h2, h1]
      · rw [if_neg hev] at hj
        exact ih (j + 1) e rest (by omega) hj
    · rw [btEventsFrom_end text j (by omega)] at hj
      exact absurd hj (by simp)

/-- End-of-text step of the extraction loop (with fuel left): the open span's
tail slice is carried as pending. -/
theorem extractSegGo_end (text : Str) (ln base fuel i s : Nat) (inB : Bool)
    (P C : List Rng) (h : text.length <= i) :
    extractSegGo text ln base (fuel + 1) i s inB P C =
      if inB && s < text.length then
        (true, P ++ [Rng.mk ln (base + s) (base + text.length)], C)
      else (inB, P, C) := by
  have h1 : ¬ i < text.length := by omega
  rw [extractSegGo, if_neg h1]

/-- Non-event step of the extraction loop: state carried unchanged. -/
theorem extractSegGo_skip (text : Str) (ln base fuel i s : Nat) (inB : Bool)
    (P C : List Rng) (hi : i < text.length) (hev : isBtEventAt text i = false) :
    extractSegGo text ln base (fuel + 1) i s inB P C =
      extractSegGo text ln base fuel (i + 1) s inB P C := by
  have h2 : ¬ isBtEventAt text i = true := by simp [hev]
  rw [extractSegGo, if_pos hi, if_neg h2]

/-- Opening step of the extraction loop: the span opens after the backtick,
with an empty pending buffer. -/
theorem extractSegGo_open (text : Str) (ln base fuel i s : Nat) (P C : List Rng)
    (hi : i < text.length) (hev : isBtEventAt text i = true) :
    extractSegGo text ln base (fuel + 1) i s false P C =
      extractSegGo text ln base fuel (i + 1) (i + 1) true [] C := by
  have h3 : ¬ false = true := by simp
  rw [extractSegGo, if_pos hi, if_pos hev, if_pos h3]

/-- Closing step of the extraction loop: pending plus the non-empty inner
slice are committed. -/
theorem extractSegGo_close (text : Str) (ln base fuel i s : Nat) (P C : List Rng)
    (hi : i < text.length) (hev : isBtEventAt text i = true) :
    extractSegGo text ln base (fuel + 1) i s true P C =
      extractSegGo text ln base fuel (i + 1) 0 false []
        (C ++ (if s < i then P ++ [Rng.mk ln (base + s) (base + i)] else P)) := by
  have h3 : ¬ ¬ true = true := by simp
  rw [extractSegGo, if_pos hi, if_pos hev, if_neg h3]

/-- The extraction loop at or past the end of the text realizes the closed and
open result specifications. -/
theorem extractSegGo_spec_atEnd (text : Str) (ln base m i : Nat)
    (h : text.length <= i) :
    (forall (s0 : Nat) (C : List Rng),
      extractSegGo text ln base (m + 1) i s0 false [] C =
        btClosedResult ln base text i C) ∧
    (forall (s : Nat) (P C : List Rng),
      extractSegGo text ln base (m + 1) i s true P C =
        btOpenResult ln base text i s P C) := by
  have hev : btEventsFrom text i = [] := btEventsFrom_end text i h
  constructor
  · intro s0 C
    rw [extractSegGo_end text ln base m i s0 false [] C h]
    rw [if_neg (by simp)]
    simp [btClosedResult, hev, btClosedFinal, btPairSlices]
  · intro s P C
    rw [extractSegGo_end text ln base m i s true P C h]
    simp only [btOpenResult, hev, btCarry]
    by_cases hs : s < text.length
    · rw [if_pos (by simp [hs]), if_pos hs]
    · rw [if_neg (by simp [hs]), if_neg hs]
      simp

/-- The extraction loop with sufficient fuel realizes the closed and open
result specifications from any position. -/
theorem extractSegGo_spec (text : Str) (ln base : Nat) :
    forall (n i : Nat), text.length <= i + n ->
      (forall (s0 : Nat) (C : List Rng),
        extractSegGo text ln base (n + 1) i s0 false [] C =
          btClosedResult ln base text i C) ∧
      (forall (s : Nat) (P C : List Rng),
        extractSegGo text ln base (n + 1) i s true P C =
          btOpenResult ln base text i s P C) := by
  intro n
  induction n with
  | zero =>
    intro i h
    exact extractSegGo_spec_atEnd text ln base 0 i (by omega)
  | succ n ih =>
    intro i h
    by_cases hi : i < text.length
    · have hstep := btEventsFrom_step text i hi
      by_cases hev : isBtEventAt text i
      · have hcons : btEventsFrom text i = i :: btEventsFrom text (i + 1) := by
          rw [hstep, if_pos hev]
        constructor
        · intro s0 C
          rw [extractSegGo_open text ln base (n + 1) i s0 [] C hi hev]
          rw [(ih (i + 1) (by omega)).2 (i + 1) [] C]
          rcases hes : btEventsFrom text (i + 1) with - | ⟨e, rest⟩
          · simp only [btOpenResult, btClosedResult, hcons, hes, btClosedFinal,
              btPairSlices]
            simp
          · have hrest := btEventsFrom_cons text (i + 1) e rest hes
            simp only [btOpenResult, btClosedResult, hcons, hes, ← hrest,
              btClosedFinal, btPairSlices]
            simp [List.append_assoc]
        · intro s P C
          rw [extractSegGo_close text ln base (n + 1) i s P C hi hev]
          rw [(ih (i + 1) (by omega)).1 0
            (C ++ (if s < i then P ++ [Rng.mk ln (base + s) (base + i)] else P))]
          simp only [btOpenResult, hcons]
      · have hev' : isBtEventAt text i = false := by simpa using hev
        have hnoev : btEventsFrom text i = btEventsFrom text (i + 1) := by
          rw [hstep, if_neg hev]
        constructor
        · intro s0 C
          rw [extractSegGo_skip text ln base (n + 1) i s0 false [] C hi hev']
          rw [(ih (i + 1) (by omega)).1 s0 C]
          unfold btClosedResult
          rw [hnoev]
        · intro s P C
          rw [extractSegGo_skip text ln base (n + 1) i s true P C hi hev']
          rw [(ih (i + 1) (by omega)).2 s P C]
          unfold btOpenResult
          rw [hnoev]
    · exact extractSegGo_spec_atEnd text ln base (n + 1) i (by omega)

/-- On a single segment the extractor returns exactly the inner slices of
consecutively paired unescaped backticks. -/
theorem extract_single_segment (ln base : Nat) (text : Str) :
    extractBacktickInnerRangesAcrossSegments [CommentTextSegment.mk ln base text] =
      btPairSlices ln base (btEvents text) := by
  unfold extractBacktickInnerRangesAcrossSegments
  simp only [List.foldl_cons, List.foldl_nil]
  unfold extractSegStep
  show (if text.isEmpty = true then ((false : Bool), ([] : List Rng), ([] : List Rng))
      else extractSegGo text ln base (text.length + 1) 0 0 false [] []).2.2 =
    btPairSlices ln base (btEvents text)
  by_cases he : text.isEmpty = true
  · rw [if_pos he]
    have ht : text = [] := by
      cases text with
      | nil => rfl
      | cons a l => simp at he
    subst ht
    rfl
  · rw [if_neg he]
    rw [(extractSegGo_spec text ln base text.length 0 (by omega)).1 0 []]
    simp [btClosedResult, btEvents]

/-- A segment with no unescaped backtick contributes nothing when the
cross-segment state is still open: the pending spans stay uncommitted. -/
theorem extract_discard (segs : List CommentTextSegment) (seg : CommentTextSegment)
    (hopen : (segs.foldl extractSegStep (false, [], [])).1 = true)
    (hnoev : btEvents seg.text = []) :
    extractBacktickInnerRangesAcrossSegments (segs ++ [seg]) =
      extractBacktickInnerRangesAcrossSegments segs := by
  unfold extractBacktickInnerRangesAcrossSegments
  rw [List.foldl_append]
  simp only [List.foldl_cons, List.foldl_nil]
  set st := segs.foldl extractSegStep (false, [], []) with hst
  unfold extractSegStep
  by_cases he : seg.text.isEmpty = true
  · rw [if_pos he]
  · rw [if_neg he, hopen]
    rw [(extractSegGo_spec seg.text seg.lineNum seg.baseCol seg.text.length 0
      (by omega)).2 0 st.2.1 st.2.2]
    unfold btOpenResult
    unfold btEvents at hnoev
    rw [hnoev]

/-- C2 (amended): for the paired-backtick extractor
`extractBacktickInnerRangesAcrossSegments`, an inline-code range is emitted
exactly for the non-empty interior of each consecutively paired unescaped
opening and closing backtick: on a single segment the output is the pair
slices of the unescaped-backtick positions (so with an odd number of
unescaped backticks the final unmatched backtick contributes no range), and
when the state at a segment boundary is still open, appending a segment with
no unescaped backtick leaves the emitted ranges unchanged — the spans
buffered since the unterminated opening backtick are discarded.  (The inline
tokenizer does not satisfy this discard property; see the counterexample.) -/
theorem C2_backtick_pairing_amended :
    (forall (ln base : Nat) (text : Str),
      extractBacktickInnerRangesAcrossSegments [CommentTextSegment.mk ln base text] =
        btPairSlices ln base (btEvents text)) ∧
    (forall (segs : List CommentTextSegment) (seg : CommentTextSegment),
      (segs.foldl extractSegStep (false, [], [])).1 = true ->
      btEvents seg.text = [] ->
      extractBacktickInnerRangesAcrossSegments (segs ++ [seg]) =
        extractBacktickInnerRangesAcrossSegments segs) :=
  ⟨extract_single_segment, extract_discard⟩

/-- Witness for C2 (amended): the discard half applied at a concrete open
block — one segment with a single unescaped backtick leaves the extractor
open, and appending a backtick-free segment leaves the output unchanged. -/
theorem C2_backtick_pairing_amended_witness :
    (([CommentTextSegment.mk 0 0 "ab `cd".toList].foldl extractSegStep
        (false, [], [])).1 = true) ∧
    btEvents "ef".toList = [] ∧
    extractBacktickInnerRangesAcrossSegments
        ([CommentTextSegment.mk 0 0 "ab `cd".toList] ++
          [CommentTextSegment.mk 1 0 "ef".toList]) =
      extractBacktickInnerRangesAcrossSegments
        [CommentTextSegment.mk 0 0 "ab `cd".toList] :=
  ⟨by decide, by decide,
    C2_backtick_pairing_amended.2 [CommentTextSegment.mk 0 0 "ab `cd".toList]
      (CommentTextSegment.mk 1 0 "ef".toList) (by decide) (by decide)⟩

/-- A list whose characters all fail the predicate is unchanged by `dropWhile`. -/
theorem dropWhile_eq_self_of_all (p : Char → Bool) (l : Str)
    (h : l.all (fun c => !p c) = true) : l.dropWhile p = l := by
  cases l with
  | nil => rfl
  | cons c cs =>
    simp only [List.all_cons, Bool.and_eq_true, Bool.not_eq_true'] at h
    simp [List.dropWhile_cons, h.1]

/-- A whitespace-free prefix is pushed wholesale onto the token accumulator. -/
theorem wsTokensAux_push (t : Str) :
    ∀ (acc s : Str), t.all (fun c => !jsIsWs c) = true →
      wsTokensAux acc (t ++ s) = wsTokensAux (t.reverse ++ acc) s := by
  induction t with
  | nil => intro acc s _; rfl
  | cons c t ih =>
    intro acc s h
    simp only [List.all_cons, Bool.and_eq_true, Bool.not_eq_true'] at h
    rw [List.cons_append, wsTokensAux, h.1]
    simp only [Bool.false_eq_true, if_false]
    rw [ih (c :: acc) s (by simpa using h.2)]
    simp [List.append_assoc]

/-- Tokenizing the single-space join of nonempty whitespace-free tokens
recovers the tokens. -/
theorem wsTokens_joinSpace (ts : List Str)
    (h : ∀ t ∈ ts, t ≠ [] ∧ t.all (fun c => !jsIsWs c) = true) :
    wsTokens (joinSpace ts) = ts := by
  induction ts with
  | nil => rfl
  | cons t ts ih =>
    obtain ⟨ht0, htw⟩ := h t (by simp)
    have hrevne : t.reverse.isEmpty = false := by
      cases hr : t.reverse.isEmpty
      · rfl
      · exact absurd (by simpa using hr) ht0
    cases ts with
    | nil =>
      show wsTokens (joinSpace [t]) = [t]
      have hj : joinSpace [t] = t := rfl
      rw [hj]
      unfold wsTokens
      have hp := wsTokensAux_push t [] [] htw
      rw [List.append_nil, List.append_nil] at hp
      rw [hp, wsTokensAux, hrevne]
      simp
    | cons t₂ ts' =>
      have hj : joinSpace (t :: t₂ :: ts') = t ++ ' ' :: joinSpace (t₂ :: ts') := rfl
      rw [hj]
      unfold wsTokens
      have hp := wsTokensAux_push t [] (' ' :: joinSpace (t₂ :: ts')) htw
      rw [List.append_nil] at hp
      rw [hp, wsTokensAux, show jsIsWs ' ' = true from rfl]
      simp only [if_true, hrevne, Bool.false_eq_true, if_false]
      rw [List.reverse_reverse]
      exact congrArg (t :: ·) (ih (fun x hx => h x (by simp [hx])))

/-- The join of a nonempty list of nonempty tokens is nonempty. -/
theorem joinSpace_ne_nil (ts : List Str) (h0 : ts ≠ []) (h : ∀ t ∈ ts, t ≠ []) :
    joinSpace ts ≠ [] := by
  cases ts with
  | nil => exact absurd rfl h0
  | cons t ts =>
    cases ts with
    | nil => exact h t (by simp)
    | cons t₂ r =>
      have hj : joinSpace (t :: t₂ :: r) = t ++ ' ' :: joinSpace (t₂ :: r) := rfl
      rw [hj]
      simp

/-- The single-space join distributes over append (both parts nonempty). -/
theorem joinSpace_append (a b : List Str) (ha : a ≠ []) (hb : b ≠ []) :
    joinSpace (a ++ b) = joinSpace a ++ ' ' :: joinSpace b := by
  induction a with
  | nil => exact absurd rfl ha
  | cons x a iha =>
    cases a with
    | nil =>
      cases b with
      | nil => exact absurd rfl hb
      | cons y b' => rfl
    | cons x₂ a' =>
      have h1 : joinSpace ((x :: x₂ :: a') ++ b) = x ++ ' ' :: joinSpace ((x₂ :: a') ++ b) := rfl
      have h2 : joinSpace (x :: x₂ :: a') = x ++ ' ' :: joinSpace (x₂ :: a') := rfl
      rw [h1, iha (by simp), h2]
      simp [List.append_assoc]

/-- Joining the per-group joins equals joining the flattened token list. -/
theorem joinSpace_map_joinSpace (gs : List (List Str)) (h : ∀ g ∈ gs, g ≠ []) :
    joinSpace (gs.map joinSpace) = joinSpace gs.flatten := by
  induction gs with
  | nil => rfl
  | cons g gs ih =>
    cases gs with
    | nil => simp [show joinSpace [joinSpace g] = joinSpace g from rfl]
    | cons g₂ r =>
      have h1 : joinSpace (joinSpace g :: joinSpace g₂ :: r.map joinSpace) =
          joinSpace g ++ ' ' :: joinSpace (joinSpace g₂ :: r.map joinSpace) := rfl
      have hflat_ne : (g₂ :: r).flatten ≠ [] := by
        have hg₂ := h g₂ (by simp)
        cases g₂ with
        | nil => exact absurd rfl hg₂
        | cons c cs => simp
      simp only [List.map_cons] at *
      rw [h1, ih (fun x hx => h x (by simp [hx]))]
      rw [← joinSpace_append g (g₂ :: r).flatten (h g (by simp)) hflat_ne]
      simp

/-- Every character of a single-space join is a space or a token character. -/
theorem mem_joinSpace (ts : List Str) (c : Char) (hc : c ∈ joinSpace ts) :
    c = ' ' ∨ ∃ t ∈ ts, c ∈ t := by
  induction ts with
  | nil => simp [joinSpace] at hc
  | cons t ts ih =>
    cases ts with
    | nil => exact Or.inr ⟨t, by simp, hc⟩
    | cons t₂ r =>
      have h1 : joinSpace (t :: t₂ :: r) = t ++ ' ' :: joinSpace (t₂ :: r) := rfl
      rw [h1] at hc
      rcases List.mem_append.mp hc with h | h
      · exact Or.inr ⟨t, by simp, h⟩
      · rcases List.mem_cons.mp h with rfl | h
        · exact Or.inl rfl
        · rcases ih h with h | ⟨u, hu, hcu⟩
          · exact Or.inl h
          · exact Or.inr ⟨u, by simp [hu], hcu⟩

/-- Dropping a prefix by a predicate never lengthens a list. -/
theorem length_dropWhile_le (p : Char → Bool) (l : Str) :
    (l.dropWhile p).length ≤ l.length := by
  induction l with
  | nil => simp
  | cons c l ih =>
    rw [List.dropWhile_cons]
    cases hp : p c
    · simp
    · simp only [if_true]
      exact Nat.le_trans ih (by simp)

/-- Dropping leading whitespace stops at a non-whitespace head. -/
theorem jsTrimStart_cons_nonws (c : Char) (r : Str) (hc : jsIsWs c = false) :
    jsTrimStart (c :: r) = c :: r := by
  simp [jsTrimStart, List.dropWhile_cons, hc]

/-- A join of nonempty whitespace-free tokens starts with a non-whitespace
character. -/
theorem joinSpace_head_nonws (ts : List Str) (h0 : ts ≠ [])
    (h : ∀ t ∈ ts, t ≠ [] ∧ t.all (fun c => !jsIsWs c) = true) :
    ∃ c r, joinSpace ts = c :: r ∧ jsIsWs c = false := by
  cases ts with
  | nil => exact absurd rfl h0
  | cons t ts =>
    obtain ⟨ht0, htw⟩ := h t (by simp)
    cases t with
    | nil => exact absurd rfl ht0
    | cons c t' =>
      simp only [List.all_cons, Bool.and_eq_true, Bool.not_eq_true'] at htw
      cases ts with
      | nil => exact ⟨c, t', rfl, htw.1⟩
      | cons t₂ r =>
        refine ⟨c, t' ++ ' ' :: joinSpace (t₂ :: r), ?_, htw.1⟩
        have hj : joinSpace ((c :: t') :: t₂ :: r) =
            (c :: t') ++ ' ' :: joinSpace (t₂ :: r) := rfl
        rw [hj, List.cons_append]

/-- A join of nonempty whitespace-free tokens ends with a non-whitespace
character (stated on the reversed join). -/
theorem joinSpace_reverse_head_nonws (ts : List Str) (h0 : ts ≠ [])
    (h : ∀ t ∈ ts, t ≠ [] ∧ t.all (fun c => !jsIsWs c) = true) :
    ∃ c r, (joinSpace ts).reverse = c :: r ∧ jsIsWs c = false := by
  induction ts with
  | nil => exact absurd rfl h0
  | cons t ts ih =>
    obtain ⟨ht0, htw⟩ := h t (by simp)
    cases ts with
    | nil =>
      cases hr : t.reverse with
      | nil => exact absurd (by simpa using congrArg List.reverse hr) ht0
      | cons c r =>
        refine ⟨c, r, hr, ?_⟩
        have hc : c ∈ t := by
          have : c ∈ t.reverse := by rw [hr]; simp
          simpa using this
        have := List.all_eq_true.mp htw c hc
        simpa using this
    | cons t₂ r =>
      obtain ⟨c, rr, hcr, hcw⟩ := ih (by simp) (fun x hx => h x (by simp [hx]))
      have hj : joinSpace (t :: t₂ :: r) = t ++ ' ' :: joinSpace (t₂ :: r) := rfl
      refine ⟨c, rr ++ ' ' :: t.reverse, ?_, hcw⟩
      rw [hj, List.reverse_append, List.reverse_cons, hcr]
      simp [List.append_assoc]

/-- Trimming trailing whitespace stops at a non-whitespace last character. -/
theorem jsTrimEnd_of_reverse_head (s : Str) (c : Char) (r : Str)
    (h : s.reverse = c :: r) (hc : jsIsWs c = false) : jsTrimEnd s = s := by
  unfold jsTrimEnd
  rw [h, List.dropWhile_cons, hc]
  simp only [Bool.false_eq_true, if_false]
  rw [← h, List.reverse_reverse]

/-- The single-space join of nonempty whitespace-free tokens is trim-fixed. -/
theorem jsTrim_joinSpace (ts : List Str) (h0 : ts ≠ [])
    (h : ∀ t ∈ ts, t ≠ [] ∧ t.all (fun c => !jsIsWs c) = true) :
    jsTrim (joinSpace ts) = joinSpace ts := by
  obtain ⟨c, r, hcr, hcw⟩ := joinSpace_head_nonws ts h0 h
  obtain ⟨c₂, r₂, hcr₂, hcw₂⟩ := joinSpace_reverse_head_nonws ts h0 h
  unfold jsTrim
  rw [hcr, jsTrimStart_cons_nonws c r hcw, ← hcr]
  exact jsTrimEnd_of_reverse_head _ c₂ r₂ hcr₂ hcw₂

/-- A trim-fixed nonempty string starts with a non-whitespace character. -/
theorem head_nonws_of_trim_fixed (fr : Str) (h : jsTrim fr = fr) (h0 : fr ≠ []) :
    ∃ c r, fr = c :: r ∧ jsIsWs c = false := by
  cases fr with
  | nil => exact absurd rfl h0
  | cons c r =>
    refine ⟨c, r, rfl, ?_⟩
    cases hc : jsIsWs c
    · rfl
    · exfalso
      have h1 : jsTrimStart (c :: r) = jsTrimStart r := by
        simp [jsTrimStart, List.dropWhile_cons, hc]
      have h2 : (jsTrim (c :: r)).length ≤ r.length := by
        unfold jsTrim
        rw [h1]
        calc (jsTrimEnd (jsTrimStart r)).length
            ≤ (jsTrimStart r).length := by
              unfold jsTrimEnd
              simpa using length_dropWhile_le jsIsWs (jsTrimStart r).reverse
          _ ≤ r.length := length_dropWhile_le jsIsWs r
      rw [h] at h2
      simp at h2

/-- Unfolding `intercalate` over a two-or-more-element list. -/
theorem intercalate_cons₂ (sep a b : Str) (l : List Str) :
    List.intercalate sep (a :: b :: l) = a ++ sep ++ List.intercalate sep (b :: l) := by
  show (List.intersperse sep (a :: b :: l)).flatten = _
  have h1 : List.intersperse sep (a :: b :: l) = a :: sep :: List.intersperse sep (b :: l) := rfl
  rw [h1]
  show a ++ (sep :: List.intersperse sep (b :: l)).flatten = _
  simp [List.intercalate, List.append_assoc]

/-- A step of the CRLF splitter on a non-CR head. -/
theorem splitCrlfAux_cons_ne (acc : Str) (c : Char) (rest : Str) (hc : c ≠ '\r') :
    splitCrlfAux acc (c :: rest) = splitCrlfAux (c :: acc) rest := by
  rw [splitCrlfAux.eq_def]
  split
  · simp_all
  · simp_all
  · injections
    subst_vars
    rfl

/-- A CR-free prefix is pushed wholesale onto the CRLF splitter accumulator. -/
theorem splitCrlfAux_push (l : Str) (h : ∀ c ∈ l, c ≠ '\r') :
    ∀ (acc s : Str), splitCrlfAux acc (l ++ s) = splitCrlfAux (l.reverse ++ acc) s := by
  induction l with
  | nil => intro acc s; rfl
  | cons c l ih =>
    intro acc s
    rw [List.cons_append, splitCrlfAux_cons_ne acc c (l ++ s) (h c (by simp))]
    rw [ih (fun x hx => h x (by simp [hx])) (c :: acc) s]
    simp [List.append_assoc]

/-- Splitting on CRLF inverts intercalating with CRLF when no line contains a
carriage return. -/
theorem splitCrlf_intercalate (lines : List Str) (hne : lines ≠ [])
    (h : ∀ l ∈ lines, ∀ c ∈ l, c ≠ '\r') :
    splitCrlfAux [] (List.intercalate ['\r', '\n'] lines) = lines := by
  induction lines with
  | nil => exact absurd rfl hne
  | cons l ls ih =>
    cases ls with
    | nil =>
      have hint : List.intercalate ['\r', '\n'] [l] = l := by
        simp [List.intercalate]
      rw [hint]
      have hp := splitCrlfAux_push l (h l (by simp)) [] []
      rw [List.append_nil, List.append_nil] at hp
      rw [hp]
      show [l.reverse.reverse] = [l]
      simp
    | cons l₂ ls' =>
      rw [intercalate_cons₂, List.append_assoc]
      have hp := splitCrlfAux_push l (h l (by simp)) []
        (['\r', '\n'] ++ List.intercalate ['\r', '\n'] (l₂ :: ls'))
      rw [List.append_nil] at hp
      rw [hp]
      show splitCrlfAux l.reverse ('\r' :: '\n' :: List.intercalate ['\r', '\n'] (l₂ :: ls')) = _
      rw [show ∀ acc rest, splitCrlfAux acc ('\r' :: '\n' :: rest) =
        acc.reverse :: splitCrlfAux [] rest from fun _ _ => rfl]
      rw [List.reverse_reverse, ih (by simp) (fun x hx => h x (by simp [hx]))]

/-- Splitting on the end-of-line marker inverts intercalating with it, for
lines free of CR and LF characters. -/
theorem eolSplit_intercalate (eol : Eol) (lines : List Str) (hne : lines ≠ [])
    (h : ∀ l ∈ lines, ∀ c ∈ l, c ≠ '\n' ∧ c ≠ '\r') :
    Eol.split eol (List.intercalate eol.toStr lines) = lines := by
  cases eol
  · show (List.intercalate ['\n'] lines).splitOn '\n' = lines
    exact List.splitOn_intercalate lines '\n' (fun l hl hmem => (h l hl '\n' hmem).1 rfl) hne
  · show splitCrlfAux [] (List.intercalate ['\r', '\n'] lines) = lines
    exact splitCrlf_intercalate lines hne (fun l hl c hc => (h l hl c hc).2)

/-- `takeWhile` passes over a prefix all of whose characters satisfy the
predicate. -/
theorem takeWhile_append_all (p : Char → Bool) (a b : Str) (ha : a.all p = true) :
    (a ++ b).takeWhile p = a ++ b.takeWhile p := by
  induction a with
  | nil => rfl
  | cons c a ih =>
    simp only [List.all_cons, Bool.and_eq_true] at ha
    rw [List.cons_append, List.takeWhile_cons, ha.1]
    simp [ih ha.2]

/-- `dropWhile` drops a prefix all of whose characters satisfy the predicate. -/
theorem dropWhile_append_all (p : Char → Bool) (a b : Str) (ha : a.all p = true) :
    (a ++ b).dropWhile p = b.dropWhile p := by
  induction a with
  | nil => rfl
  | cons c a ih =>
    simp only [List.all_cons, Bool.and_eq_true] at ha
    rw [List.cons_append, List.dropWhile_cons, ha.1]
    simp [ih ha.2]

/-- The first non-whitespace column of a plain `//` line is the indent width. -/
theorem firstNonWhitespaceIndex_c1Line (ι fr : Str) (hι : ι.all isSpaceOrTab = true) :
    firstNonWhitespaceIndex (c1Line ι fr) = some ι.length := by
  unfold firstNonWhitespaceIndex c1Line
  rw [dropWhile_append_all _ _ _ hι, takeWhile_append_all _ _ _ hι]
  rw [show ('/' :: '/' :: ' ' :: fr).dropWhile isSpaceOrTab = '/' :: '/' :: ' ' :: fr from by
    simp [List.dropWhile_cons, isSpaceOrTab]]
  rw [show ('/' :: '/' :: ' ' :: fr).takeWhile isSpaceOrTab = [] from by
    simp [List.takeWhile_cons, isSpaceOrTab]]
  simp

/-- A plain `//` line parses to its indent, the `//` marker and the text after
it. -/
theorem parseCommentLine_c1Line (ι fr : Str) (hι : ι.all isSpaceOrTab = true) :
    parseCommentLine (c1Line ι fr) =
      some ⟨ι, Pfx.line, ' ' :: fr, c1Line ι fr⟩ := by
  unfold parseCommentLine
  rw [firstNonWhitespaceIndex_c1Line ι fr hι]
  have hdrop : (c1Line ι fr).drop ι.length = '/' :: '/' :: ' ' :: fr := by
    unfold c1Line
    exact List.drop_left ι _
  have htake : (c1Line ι fr).take ι.length = ι := by
    unfold c1Line
    exact List.take_left ι _
  have hdrop2 : (c1Line ι fr).drop (ι.length + 2) = ' ' :: fr := by
    unfold c1Line
    rw [show ι ++ '/' :: '/' :: ' ' :: fr = (ι ++ ['/', '/']) ++ ' ' :: fr from by simp]
    exact List.drop_left' (by simp)
  have hpre3 : (['/', '/', '/'] : Str).isPrefixOf ('/' :: '/' :: ' ' :: fr) = false := rfl
  have hpre2 : (['/', '/'] : Str).isPrefixOf ('/' :: '/' :: ' ' :: fr) = true := rfl
  simp only [hdrop, hpre3, hpre2, Bool.false_and, Bool.true_and, Bool.false_eq_true, if_false,
    decide_not, Bool.not_false, Bool.true_eq_false, Bool.not_true, if_true]
  rw [htake, hdrop2]
  simp

/-- Element-wise parses of a list of plain `//` lines. -/
theorem mapM_parse_c1Line (ι : Str) (hι : ι.all isSpaceOrTab = true) (frags : List Str) :
    (frags.map (c1Line ι)).mapM parseCommentLine =
      some (frags.map (fun fr => ⟨ι, Pfx.line, ' ' :: fr, c1Line ι fr⟩)) := by
  induction frags with
  | nil => rfl
  | cons fr frags ih =>
    rw [List.map_cons, List.map_cons, List.mapM_cons, parseCommentLine_c1Line ι fr hι, ih]
    rfl

/-! ## C3: greedy word-wrap (corrected) -/

/-- C3 counterexample: a token longer than the available width is emitted on a
line longer than the width — `wrapWords` at width 1 keeps the two-character
token whole. -/
theorem C3_line_length_counterexample :
    ¬ ((wrapWords "aa".toList 1).all (fun l => decide (l.length ≤ 1)) = true) := by
  decide

/-- The join of a group with one more token appended. -/
theorem joinSpace_append_single (g : List Str) (t : Str) (hg : g ≠ []) :
    joinSpace (g ++ [t]) = joinSpace g ++ ' ' :: t := by
  induction g with
  | nil => exact absurd rfl hg
  | cons x g ih =>
    cases g with
    | nil => rfl
    | cons y g' =>
      have h1 : joinSpace ((x :: y :: g') ++ [t]) = x ++ ' ' :: joinSpace ((y :: g') ++ [t]) := rfl
      have h2 : joinSpace (x :: y :: g') = x ++ ' ' :: joinSpace (y :: g') := rfl
      rw [h1, h2, ih (by simp)]
      simp

/-- Greedy accumulation invariant of `wrapWordsGo`: starting from a nonempty
group whose join fits (or is a lone token), the output is the space-join of a
partition of the tokens into nonempty consecutive groups, each fitting the
width or being a single token, with every group boundary forced by overflow. -/
theorem wrapWordsGo_groups (width : Nat) (ts : List Str) :
    ∀ g0 : List Str, g0 ≠ [] →
    ((joinSpace g0).length ≤ width ∨ ∃ t, g0 = [t]) →
    ∃ gs : List (List Str),
      wrapWordsGo width (joinSpace g0) ts = gs.map joinSpace ∧
      gs.flatten = g0 ++ ts ∧
      (∀ g ∈ gs, g ≠ [] ∧ ((joinSpace g).length ≤ width ∨ ∃ t, g = [t])) ∧
      List.Chain' (fun g g' =>
        width < (joinSpace g).length + 1 + (g'.headD []).length) gs := by
  induction ts with
  | nil =>
    intro g0 hg0 hfit
    refine ⟨[g0], rfl, by simp, ?_, by simp⟩
    intro g hg
    simp only [List.mem_singleton] at hg
    subst hg
    exact ⟨hg0, hfit⟩
  | cons t ts ih =>
    intro g0 hg0 hfit
    by_cases h : (joinSpace g0).length + 1 + t.length ≤ width
    · have hg0' : g0 ++ [t] ≠ [] := by simp
      have hfit' : (joinSpace (g0 ++ [t])).length ≤ width ∨ ∃ u, g0 ++ [t] = [u] := by
        left
        rw [joinSpace_append_single _ _ hg0]
        simp only [List.length_append, List.length_cons]
        omega
      obtain ⟨gs, h1, h2, h3, h4⟩ := ih (g0 ++ [t]) hg0' hfit'
      refine ⟨gs, ?_, by rw [h2]; simp, h3, h4⟩
      rw [wrapWordsGo, if_pos h, ← joinSpace_append_single _ _ hg0, h1]
    · obtain ⟨gs, h1, h2, h3, h4⟩ := ih [t] (by simp) (Or.inr ⟨t, rfl⟩)
      have hgs_ne : gs ≠ [] := by
        intro hnil
        rw [hnil] at h2
        simp at h2
      refine ⟨g0 :: gs, ?_, by simp [h2], ?_, ?_⟩
      · have ht : joinSpace [t] = t := rfl
        rw [ht] at h1
        rw [wrapWordsGo, if_neg h, h1]
        rfl
      · intro g hg
        rcases List.mem_cons.mp hg with hg | hg
        · subst hg; exact ⟨hg0, hfit⟩
        · exact h3 g hg
      · rw [List.chain'_cons']
        refine ⟨?_, h4⟩
        intro b hb
        cases gs with
        | nil => exact absurd rfl hgs_ne
        | cons g1 gs' =>
          simp only [List.head?_cons, Option.mem_some_iff] at hb
          subst hb
          have hg1 : g1 ≠ [] := (h3 g1 (by simp)).1
          have hhead : g1.headD [] = t := by
            cases g1 with
            | nil => exact absurd rfl hg1
            | cons u g1' =>
              simp only [List.flatten, List.cons_append] at h2
              have : u = t := by
                have := congrArg (fun l => l.headD ([] : Str)) h2
                simpa using this
              simp [this]
          rw [hhead]
          omega

/-- C3 (amended): for every paragraph text and width `w ≥ 1`, the `wrapWords`
output lines are the single-space joins of a partition of the paragraph's
whitespace-delimited tokens into nonempty consecutive groups — so no token is
ever split across lines — and every output line either has length at most `w`
or consists of a single token (whose length may exceed `w`; the original
claim's unconditional length bound fails exactly there). -/
theorem C3_wrap_words_amended (text : Str) (w : Nat) (hw : 1 ≤ w) :
    (wsTokens text = [] ∧ wrapWords text w = [[]]) ∨
    ∃ gs : List (List Str),
      wrapWords text w = gs.map joinSpace ∧
      gs.flatten = wsTokens text ∧
      ∀ g ∈ gs, g ≠ [] ∧ ((joinSpace g).length ≤ w ∨ ∃ t, g = [t]) := by
  have hmax : max 1 w = w := Nat.max_eq_right hw
  unfold wrapWords
  rcases htk : wsTokens text with _ | ⟨t, ts⟩
  · exact Or.inl ⟨rfl, rfl⟩
  · right
    rw [hmax]
    obtain ⟨gs, h1, h2, h3, _⟩ := wrapWordsGo_groups w ts [t] (by simp) (Or.inr ⟨t, rfl⟩)
    have : joinSpace [t] = t := rfl
    rw [this] at h1
    exact ⟨gs, h1, by rw [h2]; simp, h3⟩

/-- Witness for C3: the amended theorem applied at a concrete paragraph. -/
theorem C3_wrap_words_amended_witness :
    (wsTokens "aa bb".toList = [] ∧ wrapWords "aa bb".toList 3 = [[]]) ∨
    ∃ gs : List (List Str),
      wrapWords "aa bb".toList 3 = gs.map joinSpace ∧
      gs.flatten = wsTokens "aa bb".toList ∧
      ∀ g ∈ gs, g ≠ [] ∧ ((joinSpace g).length ≤ 3 ∨ ∃ t, g = [t]) :=
  C3_wrap_words_amended "aa bb".toList 3 (by decide)

/-! ## C1: idempotence of wrapping (corrected) -/

/-- C1 counterexample: applying the edits of one wrap pass and recomputing with
the same width, eol and flags yields a further (non-empty) edit list — the
second pass re-normalizes the leading whitespace of the `- note:` continuation
line the first pass created. -/
theorem C1_idempotence_counterexample :
    ¬ (computeWrapCommentsReplaceEdits
        (applyReplaceEdits Eol.lf c1input
          (computeWrapCommentsReplaceEdits c1input (JsNum.num 40) Eol.lf false false))
        (JsNum.num 40) Eol.lf false false = []) := by
  decide

/-! ## C10: well-formed, non-overlapping edits -/

/-- The outer-loop invariant: every produced edit starts at or after the
current line index, satisfies `startLine ≤ endLine`, and the edits are in
strictly increasing, pairwise-disjoint order. -/
theorem cwGo_wf (M : Nat) (eol : Eol) (f g : Bool) :
    ∀ (fuel idx : Nat) (ls : List Str),
      (∀ e ∈ cwGo M eol f g fuel idx ls, idx ≤ e.startLine ∧ e.startLine ≤ e.endLine) ∧
      (cwGo M eol f g fuel idx ls).Pairwise (fun a b => a.endLine < b.startLine) := by
  intro fuel
  induction fuel with
  | zero =>
    intro idx ls
    cases ls <;> simp [cwGo]
  | succ fuel ih =>
    intro idx ls
    cases ls with
    | nil => simp [cwGo]
    | cons l ls =>
      show (∀ e ∈ cwGo M eol f g (fuel + 1) idx (l :: ls), _) ∧ _
      rw [cwGo]
      cases hp : parseCommentLine l with
      | none =>
        refine ⟨fun e he => ?_, (ih (idx + 1) ls).2⟩
        have := (ih (idx + 1) ls).1 e he
        omega
      | some firstParts =>
        simp only []
        set pr := takeBlockAux firstParts.pfx firstParts.indent ls with hpr
        set blockLines := l :: pr.1 with hbl
        set rec := cwGo M eol f g fuel (idx + blockLines.length) pr.2 with hrec
        have hlen : 1 ≤ blockLines.length := by simp [hbl]
        have hrec1 := (ih (idx + blockLines.length) pr.2).1
        have hrec2 := (ih (idx + blockLines.length) pr.2).2
        by_cases hsame : wrapCommentBlock blockLines M f g = blockLines
        · rw [if_pos hsame]
          simp only [List.nil_append]
          exact ⟨fun e he => by have := hrec1 e he; omega, hrec2⟩
        · rw [if_neg hsame]
          constructor
          · intro e he
            rcases List.mem_append.mp he with he | he
            · simp only [List.mem_singleton] at he
              subst he
              simp only []
              omega
            · have := hrec1 e he
              omega
          · rw [List.pairwise_append]
            refine ⟨by simp, hrec2, ?_⟩
            intro a ha b hb
            simp only [List.mem_singleton] at ha
            subst ha
            have := hrec1 b hb
            simp only []
            omega

/-- C10: for every input line list, width, eol and flags, the returned
`ReplaceEdit`s are well-formed and non-overlapping: each satisfies
`startLine ≤ endLine`, and for any two edits in order, the earlier edit's
inclusive range ends strictly before the later edit's range starts (hence the
`startLine`s are strictly increasing and the inclusive ranges are pairwise
disjoint). -/
theorem C10_edits_well_formed (lines : List Str) (w : JsNum) (eol : Eol) (f g : Bool) :
    (∀ e ∈ computeWrapCommentsReplaceEdits lines w eol f g, e.startLine ≤ e.endLine) ∧
    (computeWrapCommentsReplaceEdits lines w eol f g).Pairwise
      (fun a b => a.endLine < b.startLine) := by
  unfold computeWrapCommentsReplaceEdits
  obtain ⟨h1, h2⟩ := cwGo_wf (clampWidth w) eol f g lines.length 0 lines
  exact ⟨fun e he => (h1 e he).2, h2⟩

/-- Witness for C10: the invariants discharged on a concrete wrap that does
produce an edit. -/
theorem C10_edits_well_formed_witness :
    (ReplaceEdit.mk 0 0
      ("// aaaa aaaa aaaa aaaa aaaa aaaa aaaa aaaa aaaa aaaa\n// bbbb".toList)).startLine ≤
    (ReplaceEdit.mk 0 0
      ("// aaaa aaaa aaaa aaaa aaaa aaaa aaaa aaaa aaaa aaaa\n// bbbb".toList)).endLine :=
  (C10_edits_well_formed
    ["// aaaa aaaa aaaa aaaa aaaa aaaa aaaa aaaa aaaa aaaa bbbb".toList]
    (JsNum.num 55) Eol.lf false false).1 _ (by decide)

/-! ## C6: fenced blocks are never modified -/

/-- A successful `parseCommentLine` stores the line itself in `originalLine`. -/
theorem parseCommentLine_originalLine (l : Str) (q : CommentLineParts)
    (h : parseCommentLine l = some q) : q.originalLine = l := by
  unfold parseCommentLine at h
  split at h
  · exact absurd h (by simp)
  · split at h
    · simp only [Option.some.injEq] at h
      rw [← h]
    · split at h
      · simp only [Option.some.injEq] at h
        rw [← h]
      · exact absurd h (by simp)

/-- `wrapGo` on an exhausted block flushes the paragraph. -/
theorem wrapGo_nil (ι : Str) (p : Pfx) (M : Nat) (f a : Bool) (fuel : Nat)
    (inF lm : Bool) (para : List Str) :
    wrapGo ι p M f a fuel inF lm para [] = flushParaLines ι p M f para := by
  cases fuel <;> rfl

/-- One unfolding of `wrapGo` on a non-empty block (the loop body verbatim). -/
theorem wrapGo_cons (ι : Str) (px : Pfx) (M : Nat) (f a : Bool) (fuel : Nat)
    (inFence listMode : Bool) (para : List Str) (p : CommentLineParts)
    (rest : List CommentLineParts) :
    wrapGo ι px M f a (fuel + 1) inFence listMode para (p :: rest) =
    if inFence then
      p.originalLine ::
        wrapGo ι px M f a fuel
          (!isFenceLine (jsTrimStart p.afterPfx)) listMode para rest
    else if isFenceLine (jsTrimStart p.afterPfx) then
      flushParaLines ι px M f para ++ p.originalLine ::
        wrapGo ι px M f a fuel true false [] rest
    else if (jsTrim p.afterPfx).isEmpty then
      flushParaLines ι px M f para ++ (ι ++ px.toStr) ::
        wrapGo ι px M f a fuel false false [] rest
    else if isDirectiveLine (jsTrimStart p.afterPfx) ||
        isTableOrAsciiArtLine (jsTrimStart p.afterPfx) then
      flushParaLines ι px M f para ++ p.originalLine ::
        wrapGo ι px M f a fuel false false [] rest
    else
      match (if px = Pfx.doc then tryParseDocTagLine p.afterPfx else none) with
      | some dt =>
        flushParaLines ι px M f para ++
          (docTagEmit ι px M f dt rest).1 ++
          wrapGo ι px M f a fuel false false []
            (docTagEmit ι px M f dt rest).2
      | none =>
        if px = Pfx.doc && !isMarkdownListItem (jsTrimStart p.afterPfx) &&
            (findDocColonHeading p.afterPfx).isSome then
          flushParaLines ι px M f para ++ p.originalLine ::
            wrapGo ι px M f a fuel false false [] rest
        else
          if isMarkdownListItem (jsTrimStart p.afterPfx) then
            (if (findLeadingCapsLabel p.afterPfx).isSome then
              flushParaLines ι px M f para else []) ++
            flushParaLines ι px M f
              (if (findLeadingCapsLabel p.afterPfx).isSome then [] else para) ++
            p.originalLine ::
              wrapGo ι px M f a fuel false true [] rest
          else if (if (findLeadingCapsLabel p.afterPfx).isSome then false else listMode) then
            (if (findLeadingCapsLabel p.afterPfx).isSome then
              flushParaLines ι px M f para else []) ++
            p.originalLine ::
              wrapGo ι px M f a fuel false true
                (if (findLeadingCapsLabel p.afterPfx).isSome then [] else para) rest
          else if a &&
              (match (if (findLeadingCapsLabel p.afterPfx).isSome then [] else para).getLast? with
               | some lastFrag => endsWithSentencePunctuation lastFrag
               | none => false) then
            (if (findLeadingCapsLabel p.afterPfx).isSome then
              flushParaLines ι px M f para else []) ++
            flushParaLines ι px M f
              (if (findLeadingCapsLabel p.afterPfx).isSome then [] else para) ++
            wrapGo ι px M f a fuel false false
              [match p.afterPfx with | ' ' :: t => t | _ => p.afterPfx] rest
          else
            (if (findLeadingCapsLabel p.afterPfx).isSome then
              flushParaLines ι px M f para else []) ++
            wrapGo ι px M f a fuel false
              (if (findLeadingCapsLabel p.afterPfx).isSome then false else listMode)
              ((if (findLeadingCapsLabel p.afterPfx).isSome then [] else para) ++
                [match p.afterPfx with | ' ' :: t => t | _ => p.afterPfx]) rest := rfl

/-- `wrapGo` inside an open fence copies the line and closes the fence exactly
on a fence line. -/
theorem wrapGo_inFence (ι : Str) (p : Pfx) (M : Nat) (f a : Bool) (fuel : Nat)
    (lm : Bool) (para : List Str) (q : CommentLineParts) (rest : List CommentLineParts) :
    wrapGo ι p M f a (fuel + 1) true lm para (q :: rest) =
      q.originalLine ::
        wrapGo ι p M f a fuel (!isFenceLine (jsTrimStart q.afterPfx)) lm para rest := rfl

/-- `wrapGo` at a fence line outside a fence: flush, copy, open the fence. -/
theorem wrapGo_fenceOpen (ι : Str) (p : Pfx) (M : Nat) (f a : Bool) (fuel : Nat)
    (lm : Bool) (para : List Str) (q : CommentLineParts) (rest : List CommentLineParts)
    (h : isFenceLine (jsTrimStart q.afterPfx) = true) :
    wrapGo ι p M f a (fuel + 1) false lm para (q :: rest) =
      flushParaLines ι p M f para ++ q.originalLine ::
        wrapGo ι p M f a fuel true false [] rest := by
  rw [wrapGo_cons, h]
  rfl

/-- If every line of `ls` parses as a comment, `ls.mapM parseCommentLine`
succeeds with the element-wise parses. -/
theorem mapM_parse_of_forall (ls : List Str)
    (h : ∀ l ∈ ls, (parseCommentLine l).isSome) :
    ∃ ps, ls.mapM parseCommentLine = some ps ∧
      List.Forall₂ (fun l q => parseCommentLine l = some q) ls ps := by
  induction ls with
  | nil => exact ⟨[], rfl, List.Forall₂.nil⟩
  | cons l ls ih =>
    obtain ⟨q, hq⟩ := Option.isSome_iff_exists.mp (h l (by simp))
    obtain ⟨ps, hps, hrel⟩ := ih (fun x hx => h x (by simp [hx]))
    refine ⟨q :: ps, ?_, List.Forall₂.cons hq hrel⟩
    rw [List.mapM_cons, hq, hps]
    rfl

/-- If every remaining line parses with the block's marker and indent, the
block-extension loop consumes all of them. -/
theorem takeBlockAux_all (p : Pfx) (ι : Str) (ls : List Str)
    (h : ∀ l ∈ ls, ∃ q, parseCommentLine l = some q ∧ q.pfx = p ∧ q.indent = ι) :
    takeBlockAux p ι ls = (ls, []) := by
  induction ls with
  | nil => rfl
  | cons l ls ih =>
    obtain ⟨q, hq, hqp, hqi⟩ := h l (by simp)
    rw [takeBlockAux, hq]
    simp only [hqp, hqi]
    rw [if_pos (by simp), ih (fun x hx => h x (by simp [hx]))]

/-- Inside an open fence, `wrapGo` copies every line verbatim until the closing
fence line, which ends both the fence and (here) the block. -/
theorem wrapGo_fence_run (ι : Str) (p : Pfx) (M : Nat) (f a : Bool)
    (ps : List CommentLineParts) (pn : CommentLineParts)
    (hps : ∀ q ∈ ps, isFenceLine (jsTrimStart q.afterPfx) = false)
    (hpn : isFenceLine (jsTrimStart pn.afterPfx) = true) :
    ∀ (fuel : Nat) (lm : Bool), ps.length + 1 ≤ fuel →
      wrapGo ι p M f a fuel true lm [] (ps ++ [pn]) =
        ps.map (fun q => q.originalLine) ++ [pn.originalLine] := by
  induction ps with
  | nil =>
    intro fuel lm hfuel
    obtain ⟨fuel, rfl⟩ : ∃ k, fuel = k + 1 := ⟨fuel - 1, by omega⟩
    rw [List.nil_append, wrapGo_inFence, hpn]
    rw [show (!true) = false from rfl, wrapGo_nil]
    rfl
  | cons q ps ih =>
    intro fuel lm hfuel
    have hfuel2 : ps.length + 1 + 1 ≤ fuel := by simpa using hfuel
    obtain ⟨fuel, rfl⟩ : ∃ k, fuel = k + 1 := ⟨fuel - 1, by omega⟩
    rw [List.cons_append, wrapGo_inFence, hps q (by simp)]
    rw [show (!false) = true from rfl]
    rw [ih (fun x hx => hps x (by simp [hx])) fuel lm (by omega)]
    rfl

/-- Element-wise parses reproduce the original lines in order. -/
theorem forall₂_parse_map_original (ls : List Str) (ps : List CommentLineParts)
    (h : List.Forall₂ (fun l q => parseCommentLine l = some q) ls ps) :
    ps.map (fun q => q.originalLine) = ls := by
  induction h with
  | nil => rfl
  | cons hq _ ih =>
    simp only [List.map_cons, ih, List.cons.injEq, and_true]
    exact parseCommentLine_originalLine _ _ hq

/-- Decomposition of element-wise parses along `mid ++ [closing]`. -/
theorem forall₂_parse_append_single (mid : List Str) (closing : Str)
    (ps' : List CommentLineParts)
    (h : List.Forall₂ (fun l q => parseCommentLine l = some q) (mid ++ [closing]) ps') :
    ∃ psMid qn, ps' = psMid ++ [qn] ∧ psMid.length = mid.length ∧
      (∀ q ∈ psMid, ∃ l ∈ mid, parseCommentLine l = some q) ∧
      List.Forall₂ (fun l q => parseCommentLine l = some q) mid psMid ∧
      parseCommentLine closing = some qn := by
  induction mid generalizing ps' with
  | nil =>
    rcases h with - | ⟨hq, hr⟩
    case cons q₁ ps₁ =>
      cases hr
      exact ⟨[], q₁, by simp, by simp, by simp, List.Forall₂.nil, hq⟩
  | cons m ms ihm =>
    rcases h with - | ⟨hq, hr⟩
    case cons q₁ ps₁ =>
      obtain ⟨psMid, qn, h1, h2, h3, h4, h5⟩ := ihm ps₁ hr
      refine ⟨q₁ :: psMid, qn, by simp [h1], by simp [h2], ?_, List.Forall₂.cons hq h4, h5⟩
      intro q hqmem
      rcases List.mem_cons.mp hqmem with rfl | hqmem
      · exact ⟨m, by simp, hq⟩
      · obtain ⟨l, hl, hlq⟩ := h3 q hqmem
        exact ⟨l, by simp [hl], hlq⟩

/-- A block that is exactly one fenced section (fence line, non-fence interior
lines, fence line) is reproduced verbatim by `wrapCommentBlock`. -/
theorem wrapCommentBlock_fenced (opening closing : Str) (mid : List Str)
    (M : Nat) (f a : Bool)
    (hall : ∀ l ∈ opening :: mid ++ [closing], (parseCommentLine l).isSome)
    (hopen : lineIsFence opening = true)
    (hclose : lineIsFence closing = true)
    (hmid : ∀ l ∈ mid, lineIsFence l = false) :
    wrapCommentBlock (opening :: mid ++ [closing]) M f a = opening :: mid ++ [closing] := by
  obtain ⟨ps, hps, hrel⟩ := mapM_parse_of_forall _ hall
  rcases hrel with - | ⟨hq0, hrel⟩
  case cons q₀ ps' =>
    obtain ⟨psMid, qn, rfl, hlenMid, hmemMid, hrelMid, hqn⟩ :=
      forall₂_parse_append_single mid closing ps' hrel
    have hq0fence : isFenceLine (jsTrimStart q₀.afterPfx) = true := by
      have h := hopen
      unfold lineIsFence at h
      rw [hq0] at h
      exact h
    have hqnfence : isFenceLine (jsTrimStart qn.afterPfx) = true := by
      have h := hclose
      unfold lineIsFence at h
      rw [hqn] at h
      exact h
    have hmidfence : ∀ q ∈ psMid, isFenceLine (jsTrimStart q.afterPfx) = false := by
      intro q hq
      obtain ⟨l, hl, hlq⟩ := hmemMid q hq
      have h := hmid l hl
      unfold lineIsFence at h
      rw [hlq] at h
      exact h
    unfold wrapCommentBlock
    rw [hps]
    simp only []
    have hlen : (opening :: mid ++ [closing]).length = (psMid.length + 1) + 1 := by
      simp [hlenMid]
    rw [hlen, wrapGo_fenceOpen _ _ _ _ _ _ _ _ _ _ hq0fence]
    rw [wrapGo_fence_run q₀.indent q₀.pfx M f a psMid qn hmidfence hqnfence
      (psMid.length + 1) false (le_refl _)]
    rw [show flushParaLines q₀.indent q₀.pfx M f [] = [] from rfl]
    rw [parseCommentLine_originalLine _ _ hq0,
      forall₂_parse_map_original _ _ hrelMid,
      parseCommentLine_originalLine _ _ hqn]
    rfl

/-- One unfolding of the outer loop `cwGo` on a non-empty line list. -/
theorem cwGo_cons (M : Nat) (eol : Eol) (f g : Bool) (fuel idx : Nat)
    (l : Str) (ls : List Str) :
    cwGo M eol f g (fuel + 1) idx (l :: ls) =
    (match parseCommentLine l with
     | none => cwGo M eol f g fuel (idx + 1) ls
     | some firstParts =>
       (if wrapCommentBlock (l :: (takeBlockAux firstParts.pfx firstParts.indent ls).1)
            M f g = l :: (takeBlockAux firstParts.pfx firstParts.indent ls).1 then []
        else [ReplaceEdit.mk idx
          (idx + (l :: (takeBlockAux firstParts.pfx firstParts.indent ls).1).length - 1)
          (List.intercalate eol.toStr
            (wrapCommentBlock (l :: (takeBlockAux firstParts.pfx firstParts.indent ls).1)
              M f g))]) ++
        cwGo M eol f g fuel
          (idx + (l :: (takeBlockAux firstParts.pfx firstParts.indent ls).1).length)
          (takeBlockAux firstParts.pfx firstParts.indent ls).2) := rfl

/-- `cwGo` on an exhausted line list produces no edits. -/
theorem cwGo_nil (M : Nat) (eol : Eol) (f g : Bool) (fuel idx : Nat) :
    cwGo M eol f g fuel idx [] = [] := by
  cases fuel <;> rfl

/-- On a block of plain-prose `//` lines the reflow loop accumulates every
line's text (with its single leading space stripped) into the paragraph and
flushes once at the end. -/
theorem wrapGo_plain (ι : Str) (M : Nat) (f : Bool) :
    ∀ (qs : List CommentLineParts) (fuel : Nat) (para : List Str),
      qs.length ≤ fuel →
      (∀ q ∈ qs, ∃ fr, q.afterPfx = ' ' :: fr ∧ jsTrim fr = fr ∧ fr ≠ [] ∧
        c1SafeLine fr = true) →
      wrapGo ι Pfx.line M f false fuel false false para qs =
        flushParaLines ι Pfx.line M f
          (para ++ qs.map (fun q =>
            match q.afterPfx with | ' ' :: t => t | _ => q.afterPfx)) := by
  intro qs
  induction qs with
  | nil =>
    intro fuel para _ _
    rw [wrapGo_nil]
    simp
  | cons q qs ih =>
    intro fuel para hfuel hq
    obtain ⟨fr, hfr, hfix, hfr0, hsafe⟩ := hq q (by simp)
    obtain ⟨fuel, rfl⟩ : ∃ k, fuel = k + 1 := ⟨fuel - 1, by simp at hfuel; omega⟩
    obtain ⟨c, r, hcr, hcws⟩ := head_nonws_of_trim_fixed fr hfix hfr0
    have hts : jsTrimStart q.afterPfx = fr := by
      rw [hfr, hcr]
      simp [jsTrimStart, List.dropWhile_cons, hcws, show jsIsWs ' ' = true from by decide]
    have htsfr : jsTrimStart fr = fr := by
      rw [hcr]
      exact jsTrimStart_cons_nonws c r hcws
    have htr : jsTrim q.afterPfx = fr := by
      unfold jsTrim
      rw [hts]
      have h2 := hfix
      unfold jsTrim at h2
      rw [htsfr] at h2
      exact h2
    unfold c1SafeLine at hsafe
    simp only [Bool.and_eq_true, Bool.not_eq_true'] at hsafe
    obtain ⟨⟨⟨⟨hfen, hdir⟩, htab⟩, hlist⟩, hnone⟩ := hsafe
    have hcaps : (findLeadingCapsLabel q.afterPfx).isSome = false := by
      rw [hfr]
      rw [Option.isNone_iff_eq_none] at hnone
      rw [hnone]
      rfl
    have hblank : (jsTrim q.afterPfx).isEmpty = false := by
      rw [htr, hcr]
      rfl
    rw [wrapGo_cons, hts]
    simp only [hfen, hblank, hdir, htab, hlist, hcaps, Bool.false_eq_true, if_false,
      Bool.or_self, Bool.false_and, Bool.and_false, reduceCtorEq, decide_False,
      Bool.not_false, Bool.and_true]
    rw [List.nil_append]
    rw [ih fuel _ (by simp at hfuel ⊢; omega) (fun x hx => hq x (by simp [hx]))]
    simp [hfr, List.append_assoc]

/-- Flushing a nonempty paragraph of trim-fixed nonempty fragments wraps their
join and re-attaches indent and marker. -/
theorem flushParaLines_plain (ι : Str) (M : Nat) (f : Bool) (frags : List Str)
    (hne : frags ≠ []) (hfix : ∀ fr ∈ frags, jsTrim fr = fr ∧ fr ≠ []) :
    flushParaLines ι Pfx.line M f frags =
      (wrapWords (joinSpace frags) (max 1 (M - ((if f then 0 else ι.length) + 2 + 1)))).map
        (fun l => if l.isEmpty then ι ++ Pfx.line.toStr else ι ++ Pfx.line.toStr ++ ' ' :: l) := by
  unfold flushParaLines
  rw [if_neg (by simpa [List.isEmpty_iff] using hne)]
  have hmap : frags.map jsTrim = frags := by
    have h1 : frags.map jsTrim = frags.map id :=
      List.map_congr_left (fun a ha => (hfix a ha).1)
    rw [h1, List.map_id]
  rw [hmap]
  have hfil : frags.filter (fun p => ¬ p.isEmpty) = frags := by
    rw [List.filter_eq_self]
    intro a ha
    have := (hfix a ha).2
    simp [List.isEmpty_iff, this]
  rw [hfil]
  rfl

/-- Wrapping a block of plain-prose `//` lines rewraps the single accumulated
paragraph: the output is the greedy wrap of the joined fragments, re-prefixed
with indent and marker. -/
theorem wrapCommentBlock_plainParagraph (ι : Str) (M : Nat) (f : Bool) (frags : List Str)
    (hι : ι.all isSpaceOrTab = true) (hne : frags ≠ [])
    (hfr : ∀ fr ∈ frags, jsTrim fr = fr ∧ fr ≠ [] ∧ c1SafeLine fr = true) :
    wrapCommentBlock (frags.map (c1Line ι)) M f false =
      (wrapWords (joinSpace frags) (max 1 (M - ((if f then 0 else ι.length) + 2 + 1)))).map
        (fun l => if l.isEmpty then ι ++ Pfx.line.toStr else ι ++ Pfx.line.toStr ++ ' ' :: l) := by
  unfold wrapCommentBlock
  rw [mapM_parse_c1Line ι hι frags]
  cases frags with
  | nil => exact absurd rfl hne
  | cons fr frs =>
    simp only [List.map_cons]
    have hgo := wrapGo_plain ι M f
      (⟨ι, Pfx.line, ' ' :: fr, c1Line ι fr⟩ ::
        frs.map (fun x => ⟨ι, Pfx.line, ' ' :: x, c1Line ι x⟩))
      (c1Line ι fr :: frs.map (c1Line ι)).length []
      (by simp) ?_
    · rw [show (c1Line ι fr :: frs.map (c1Line ι)).length =
          (c1Line ι fr :: frs.map (c1Line ι)).length from rfl] at hgo
      rw [hgo]
      have hmapstrip :
          ((⟨ι, Pfx.line, ' ' :: fr, c1Line ι fr⟩ ::
            frs.map (fun x => ⟨ι, Pfx.line, ' ' :: x, c1Line ι x⟩) :
              List CommentLineParts).map (fun q =>
            match q.afterPfx with | ' ' :: t => t | _ => q.afterPfx)) = fr :: frs := by
        simp only [List.map_cons, List.map_map]
        refine congrArg₂ (· :: ·) rfl ?_
        rw [show (fun q : CommentLineParts =>
            match q.afterPfx with | ' ' :: t => t | _ => q.afterPfx) ∘
            (fun x => (⟨ι, Pfx.line, ' ' :: x, c1Line ι x⟩ : CommentLineParts)) =
            fun x => x from rfl]
        exact List.map_id frs
      rw [hmapstrip, List.nil_append]
      exact flushParaLines_plain ι M f (fr :: frs) (by simp)
        (fun x hx => ⟨(hfr x hx).1, (hfr x hx).2.1⟩)
    · intro q hq
      rcases List.mem_cons.mp hq with rfl | hq
      · exact ⟨fr, rfl, (hfr fr (by simp)).1, (hfr fr (by simp)).2.1, (hfr fr (by simp)).2.2⟩
      · obtain ⟨x, hx, rfl⟩ := List.mem_map.mp hq
        exact ⟨x, rfl, (hfr x (by simp [hx])).1, (hfr x (by simp [hx])).2.1,
          (hfr x (by simp [hx])).2.2⟩

/-- The outer edit loop on a document that is exactly one block of plain `//`
lines: one block comparison, one potential edit. -/
theorem cwGo_plain_block (W : Nat) (eol : Eol) (f : Bool) (ι : Str) (frags : List Str)
    (hι : ι.all isSpaceOrTab = true) (hne : frags ≠ []) (fuel : Nat)
    (hfuel : frags.length ≤ fuel) :
    cwGo W eol f false fuel 0 (frags.map (c1Line ι)) =
      (if wrapCommentBlock (frags.map (c1Line ι)) W f false = frags.map (c1Line ι) then []
       else [ReplaceEdit.mk 0 (frags.length - 1)
         (List.intercalate eol.toStr (wrapCommentBlock (frags.map (c1Line ι)) W f false))]) := by
  cases frags with
  | nil => exact absurd rfl hne
  | cons fr frs =>
    obtain ⟨k, rfl⟩ : ∃ k, fuel = k + 1 := ⟨fuel - 1, by simp at hfuel; omega⟩
    rw [List.map_cons, cwGo_cons, parseCommentLine_c1Line ι fr hι]
    simp only []
    have htake : takeBlockAux Pfx.line ι (frs.map (c1Line ι)) = (frs.map (c1Line ι), []) := by
      refine takeBlockAux_all _ _ _ ?_
      intro l hl
      obtain ⟨fr', hfr', rfl⟩ := List.mem_map.mp hl
      exact ⟨⟨ι, Pfx.line, ' ' :: fr', c1Line ι fr'⟩, parseCommentLine_c1Line ι fr' hι,
        rfl, rfl⟩
    rw [htake]
    simp only [cwGo_nil, List.append_nil, List.length_cons, List.length_map, Nat.zero_add]

/-- Characters of plain `//` lines over whitespace-free token groups are never
CR or LF. -/
theorem c1Line_no_crlf (ι : Str) (hι : ι.all isSpaceOrTab = true) (fr : Str)
    (hfr : ∀ c ∈ fr, jsIsWs c = false ∨ c = ' ') :
    ∀ c ∈ c1Line ι fr, c ≠ '\n' ∧ c ≠ '\r' := by
  intro c hc
  unfold c1Line at hc
  rcases List.mem_append.mp hc with h | h
  · have := List.all_eq_true.mp hι c h
    unfold isSpaceOrTab at this
    simp only [Bool.or_eq_true, decide_eq_true_eq] at this
    rcases this with rfl | rfl
    · exact ⟨by decide, by decide⟩
    · exact ⟨by decide, by decide⟩
  · simp only [List.mem_cons] at h
    rcases h with rfl | rfl | rfl | h
    · exact ⟨by decide, by decide⟩
    · exact ⟨by decide, by decide⟩
    · exact ⟨by decide, by decide⟩
    · rcases hfr c h with hw | rfl
      · constructor
        · intro hceq
          rw [hceq] at hw
          exact absurd hw (by decide)
        · intro hceq
          rw [hceq] at hw
          exact absurd hw (by decide)
      · exact ⟨by decide, by decide⟩

/-- C1 (amended): one wrap pass is idempotent on a single plain-prose `//`
comment line (with the punctuation-break policy off): after applying the edits
of one pass, a second pass with the same width, eol and flags yields no edits.
`ts` are the whitespace-delimited words; the safety hypothesis asks every
consecutive sub-join of the words — every line a rewrap could form — to be
plain prose (no fence, directive, table, list marker or caps label), which is
what keeps the second pass in the paragraph-accumulating branch.  (The
original unconditional claim fails; see the counterexample.) -/
theorem C1_idempotence_amended (ι : Str) (ts : List Str) (w : JsNum) (eol : Eol) (f : Bool)
    (h1 : ts ≠ [])
    (h2 : ∀ t ∈ ts, t ≠ [] ∧ t.all (fun c => !jsIsWs c) = true)
    (h3 : ∀ j, j ≤ ts.length → ∀ i, i < j →
      c1SafeLine (joinSpace ((ts.take j).drop i)) = true)
    (hι : ι.all isSpaceOrTab = true) :
    computeWrapCommentsReplaceEdits
      (applyReplaceEdits eol [c1Line ι (joinSpace ts)]
        (computeWrapCommentsReplaceEdits [c1Line ι (joinSpace ts)] w eol f false))
      w eol f false = [] := by
  cases ts with
  | nil => exact absurd rfl h1
  | cons t₀ ts₀ =>
  clear h1
  have hwt : wsTokens (joinSpace (t₀ :: ts₀)) = t₀ :: ts₀ := wsTokens_joinSpace _ h2
  have hAW1 : 1 ≤ max 1 (clampWidth w - ((if f then 0 else ι.length) + 2 + 1)) := le_max_left _ _
  have hfrag1 : ∀ fr ∈ [joinSpace (t₀ :: ts₀)],
      jsTrim fr = fr ∧ fr ≠ [] ∧ c1SafeLine fr = true := by
    intro fr hfr
    simp only [List.mem_singleton] at hfr
    subst hfr
    refine ⟨jsTrim_joinSpace _ (by simp) h2,
      joinSpace_ne_nil _ (by simp) (fun t ht => (h2 t ht).1), ?_⟩
    have := h3 (t₀ :: ts₀).length (le_refl _) 0 (by simp)
    simpa [List.take_length] using this
  have hp1 : computeWrapCommentsReplaceEdits [c1Line ι (joinSpace (t₀ :: ts₀))] w eol f false =
      (if wrapCommentBlock [c1Line ι (joinSpace (t₀ :: ts₀))] (clampWidth w) f false =
          [c1Line ι (joinSpace (t₀ :: ts₀))] then []
       else [ReplaceEdit.mk 0 0 (List.intercalate eol.toStr
         (wrapCommentBlock [c1Line ι (joinSpace (t₀ :: ts₀))] (clampWidth w) f false))]) := by
    unfold computeWrapCommentsReplaceEdits
    have := cwGo_plain_block (clampWidth w) eol f ι [joinSpace (t₀ :: ts₀)] hι (by simp) 1
      (by simp)
    simpa using this
  have hb1 : wrapCommentBlock [c1Line ι (joinSpace (t₀ :: ts₀))] (clampWidth w) f false =
      (wrapWords (joinSpace (t₀ :: ts₀)) (max 1 (clampWidth w - ((if f then 0 else ι.length) + 2 + 1)))).map (fun l => if l.isEmpty then ι ++ Pfx.line.toStr else ι ++ Pfx.line.toStr ++ ' ' :: l) := by
    have := wrapCommentBlock_plainParagraph ι (clampWidth w) f [joinSpace (t₀ :: ts₀)] hι
      (by simp) hfrag1
    rw [show joinSpace [joinSpace (t₀ :: ts₀)] = joinSpace (t₀ :: ts₀) from rfl] at this
    simpa using this
  obtain ⟨gs, hg1, hg2, hg3, -⟩ :=
    wrapWordsGo_groups (max 1 (clampWidth w - ((if f then 0 else ι.length) + 2 + 1))) ts₀ [t₀] (by simp) (Or.inr ⟨t₀, rfl⟩)
  rw [show joinSpace [t₀] = t₀ from rfl] at hg1
  have hg2' : gs.flatten = t₀ :: ts₀ := by rw [hg2]; rfl
  have hg_ne : ∀ g ∈ gs, g ≠ [] := fun g hg => (hg3 g hg).1
  have hgs_ne : gs ≠ [] := by
    intro h0
    rw [h0] at hg2'
    simp at hg2'
  have hwords : wrapWords (joinSpace (t₀ :: ts₀)) (max 1 (clampWidth w - ((if f then 0 else ι.length) + 2 + 1))) = gs.map joinSpace := by
    unfold wrapWords
    rw [hwt, Nat.max_eq_right hAW1]
    exact hg1
  have htok : ∀ g ∈ gs, ∀ t ∈ g, t ≠ [] ∧ t.all (fun c => !jsIsWs c) = true := by
    intro g hg t ht
    refine h2 t ?_
    rw [← hg2']
    exact List.mem_flatten.mpr ⟨g, hg, ht⟩
  have hfrag2 : ∀ fr ∈ gs.map joinSpace, jsTrim fr = fr ∧ fr ≠ [] ∧ c1SafeLine fr = true := by
    intro fr hfr
    obtain ⟨g, hg, rfl⟩ := List.mem_map.mp hfr
    refine ⟨jsTrim_joinSpace g (hg_ne g hg) (htok g hg),
      joinSpace_ne_nil g (hg_ne g hg) (fun t ht => (htok g hg t ht).1), ?_⟩
    obtain ⟨l₁, l₂, hgs⟩ := List.append_of_mem hg
    have hts_decomp : t₀ :: ts₀ = l₁.flatten ++ g ++ l₂.flatten := by
      rw [← hg2', hgs]
      simp [List.flatten_append, List.append_assoc]
    have hgpos : 0 < g.length := List.length_pos.mpr (hg_ne g hg)
    have hseg : (((t₀ :: ts₀).take (l₁.flatten.length + g.length)).drop l₁.flatten.length) = g := by
      rw [hts_decomp]
      rw [show l₁.flatten ++ g ++ l₂.flatten = (l₁.flatten ++ g) ++ l₂.flatten from by
        simp [List.append_assoc]]
      rw [List.take_left' (by simp)]
      exact List.drop_left _ _
    have hsafe := h3 (l₁.flatten.length + g.length)
      (by rw [hts_decomp]; simp) l₁.flatten.length (by omega)
    rw [hseg] at hsafe
    exact hsafe
  have hifm : (gs.map joinSpace).map (fun l => if l.isEmpty then ι ++ Pfx.line.toStr else ι ++ Pfx.line.toStr ++ ' ' :: l) = (gs.map joinSpace).map (c1Line ι) := by
    refine List.map_congr_left ?_
    intro fr hfr
    obtain ⟨g, hg, rfl⟩ := List.mem_map.mp hfr
    have hne' : (joinSpace g).isEmpty = false := by
      simp [List.isEmpty_iff,
        joinSpace_ne_nil g (hg_ne g hg) (fun t ht => (htok g hg t ht).1)]
    simp only [hne', Bool.false_eq_true, if_false]
    simp [c1Line, Pfx.toStr, List.append_assoc]
  by_cases hch : wrapCommentBlock [c1Line ι (joinSpace (t₀ :: ts₀))] (clampWidth w) f false =
      [c1Line ι (joinSpace (t₀ :: ts₀))]
  · rw [hp1, if_pos hch]
    show computeWrapCommentsReplaceEdits [c1Line ι (joinSpace (t₀ :: ts₀))] w eol f false = []
    rw [hp1, if_pos hch]
  · rw [hp1, if_neg hch]
    have hchars : ∀ l ∈ (gs.map joinSpace).map (c1Line ι), ∀ c ∈ l, c ≠ '\n' ∧ c ≠ '\r' := by
      intro l hl
      obtain ⟨fr, hfrm, rfl⟩ := List.mem_map.mp hl
      obtain ⟨g, hg, rfl⟩ := List.mem_map.mp hfrm
      refine c1Line_no_crlf ι hι (joinSpace g) ?_
      intro c hc
      rcases mem_joinSpace g c hc with rfl | ⟨t, ht, hct⟩
      · exact Or.inr rfl
      · exact Or.inl (by simpa using List.all_eq_true.mp (htok g hg t ht).2 c hct)
    have happ : applyReplaceEdits eol [c1Line ι (joinSpace (t₀ :: ts₀))]
        [ReplaceEdit.mk 0 0 (List.intercalate eol.toStr
          (wrapCommentBlock [c1Line ι (joinSpace (t₀ :: ts₀))] (clampWidth w) f false))] =
        (gs.map joinSpace).map (c1Line ι) := by
      simp only [applyReplaceEdits]
      rw [hb1, hwords, hifm]
      rw [eolSplit_intercalate eol _ (by simpa using hgs_ne) hchars]
      simp
    rw [happ]
    unfold computeWrapCommentsReplaceEdits
    rw [cwGo_plain_block (clampWidth w) eol f ι (gs.map joinSpace) hι
      (by simpa using hgs_ne) _ (by simp)]
    rw [if_pos ?_]
    rw [wrapCommentBlock_plainParagraph ι (clampWidth w) f (gs.map joinSpace) hι
      (by simpa using hgs_ne) hfrag2]
    rw [joinSpace_map_joinSpace gs hg_ne, hg2', hwords, hifm]

/-- Witness for C1 (amended): the theorem applied to a concrete nine-word `//`
comment at width 45, discharging every hypothesis by computation. -/
theorem C1_idempotence_amended_witness :
    (c1wts ≠ [] ∧
      (∀ t ∈ c1wts, t ≠ [] ∧ t.all (fun c => !jsIsWs c) = true) ∧
      (∀ j, j ≤ c1wts.length → ∀ i, i < j →
        c1SafeLine (joinSpace ((c1wts.take j).drop i)) = true)) ∧
    computeWrapCommentsReplaceEdits
      (applyReplaceEdits Eol.lf [c1Line [] (joinSpace c1wts)]
        (computeWrapCommentsReplaceEdits [c1Line [] (joinSpace c1wts)]
          (JsNum.num 45) Eol.lf false false))
      (JsNum.num 45) Eol.lf false false = [] :=
  ⟨⟨by decide, by decide, by decide⟩,
    C1_idempotence_amended [] c1wts (JsNum.num 45) Eol.lf false (by decide) (by decide)
      (by decide) (by decide)⟩

/-- C6: a comment block consisting solely of a fenced code section — an
opening fence line, any interior comment lines that are not themselves fence
lines, and a closing fence line, all with the same comment marker and indent —
produces no replacement edit at any width, eol, or policy flags: every fenced
line is emitted verbatim, so the wrapped output equals the original lines. -/
theorem C6_fenced_block_unmodified (opening closing : Str) (mid : List Str)
    (p : Pfx) (ι : Str) (w : JsNum) (eol : Eol) (f g : Bool)
    (hall : ∀ l ∈ opening :: mid ++ [closing], ∃ q,
      parseCommentLine l = some q ∧ q.pfx = p ∧ q.indent = ι)
    (hopen : lineIsFence opening = true)
    (hclose : lineIsFence closing = true)
    (hmid : ∀ l ∈ mid, lineIsFence l = false) :
    computeWrapCommentsReplaceEdits (opening :: mid ++ [closing]) w eol f g = [] := by
  unfold computeWrapCommentsReplaceEdits
  obtain ⟨q₀, hq₀, hq₀p, hq₀i⟩ := hall opening (by simp)
  have hlen : (opening :: mid ++ [closing]).length = (mid.length + 1) + 1 := by simp
  rw [hlen]
  refine Eq.trans (cwGo_cons (clampWidth w) eol f g (mid.length + 1) 0 opening
    (mid ++ [closing])) ?_
  cases hp : parseCommentLine opening with
  | none => rw [hp] at hq₀; exact absurd hq₀ (by simp)
  | some q₀' =>
    rw [hp] at hq₀
    injection hq₀ with hq₀
    subst hq₀
    have hwb := wrapCommentBlock_fenced opening closing mid (clampWidth w) f g
      (fun l hl => by obtain ⟨q, hq, -, -⟩ := hall l hl; simp [hq]) hopen hclose hmid
    simp only [hq₀p, hq₀i,
      takeBlockAux_all p ι (mid ++ [closing])
        (fun l hl => hall l (List.mem_cons_of_mem _ hl))]
    split
    · rw [cwGo_nil]
      rfl
    · rename_i hne
      exact absurd hwb hne

/-- Witness for C6: a concrete three-line fenced `//` block is left unchanged. -/
theorem C6_fenced_block_unmodified_witness :
    computeWrapCommentsReplaceEdits
      ["// ```".toList, "// let x = 1 + 2".toList, "// ```".toList]
      (JsNum.num 40) Eol.lf false false = [] :=
  C6_fenced_block_unmodified "// ```".toList "// ```".toList
    ["// let x = 1 + 2".toList] Pfx.line [] (JsNum.num 40) Eol.lf false false
    (by
      intro l hl
      fin_cases hl
      · exact ⟨_, rfl, rfl, rfl⟩
      · exact ⟨_, rfl, rfl, rfl⟩
      · exact ⟨_, rfl, rfl, rfl⟩)
    (by decide) (by decide)
    (by
      intro l hl
      fin_cases hl
      decide)

/-! ## C8: the Swift comment-start scanner -/

/-- Every continuing scanner transition strictly advances the position. -/
theorem scanStep_pos (text : Str) (i : Nat) (st : ScanState) (b : Nat × ScanState)
    (h : scanStep text i st = Sum.inr b) : i < b.1 := by
  unfold scanStep at h
  repeat' split at h
  all_goals first
    | (injection h with h1; subst h1; simp <;> omega)
    | (exact absurd h (by simp))

/-- At a configuration outside any string that sees `//`, the scanner returns
that position. -/
theorem scanStep_comment_hit (text : Str) (i : Nat) (st : ScanState)
    (hout : st.inString = false)
    (h1 : text.get? i = some '/') (h2 : text.get? (i + 1) = some '/') :
    scanStep text i st = Sum.inl i := by
  unfold scanStep
  rw [h1]
  simp [hout]
  simpa using h2

/-- If the search loop returns `none` (with enough fuel), no configuration it
can reach is an unescaped `//` outside a string literal. -/
theorem findSwiftGo_none_no_hit (text : Str) :
    ∀ (fuel i : Nat) (st : ScanState), text.length ≤ fuel + i →
      findSwiftGo text fuel i st = none →
      ∀ c, ScanReaches text (i, st) c →
        ¬ (c.1 + 1 < text.length ∧ c.2.inString = false ∧
           text.get? c.1 = some '/' ∧ text.get? (c.1 + 1) = some '/') := by
  intro fuel
  induction fuel with
  | zero =>
    intro i st hfuel hnone c hreach
    rcases Relation.ReflTransGen.cases_head hreach with rfl | ⟨b, hstep, -⟩
    · rintro ⟨hlt, -, -, -⟩
      simp only [] at hlt
      omega
    · rcases hstep with ⟨hlt, -⟩
      simp only [] at hlt
      omega
  | succ fuel ih =>
    intro i st hfuel hnone c hreach
    by_cases hguard : i + 1 < text.length
    · rw [findSwiftGo, if_pos hguard] at hnone
      cases hstep : scanStep text i st with
      | inl j => rw [hstep] at hnone; exact absurd hnone (by simp)
      | inr n =>
        rw [hstep] at hnone
        rcases Relation.ReflTransGen.cases_head hreach with rfl | ⟨b, hstepb, hreach'⟩
        · rintro ⟨-, hout, h1, h2⟩
          rw [scanStep_comment_hit text i st hout h1 h2] at hstep
          exact absurd hstep (by simp)
        · rcases hstepb with ⟨-, hstepb⟩
          rw [hstep] at hstepb
          injection hstepb with hb
          subst hb
          have hpos := scanStep_pos text i st n hstep
          exact ih n.1 n.2 (by omega) hnone c hreach'
    · rcases Relation.ReflTransGen.cases_head hreach with rfl | ⟨b, hstepb, -⟩
      · rintro ⟨hlt, -, -, -⟩
        simp only [] at hlt
        omega
      · rcases hstepb with ⟨hlt, -⟩
        simp only [] at hlt
        omega

/-- The scanner returns (`inl`) only at an out-of-string `//` sighting: the
returned index is the current position, the state is outside any string, and
two slashes start there. -/
theorem scanStep_inl_hit (text : Str) (i : Nat) (st : ScanState) (j : Nat)
    (h : scanStep text i st = Sum.inl j) :
    j = i ∧ st.inString = false ∧ text.get? i = some '/' ∧ text.get? (i + 1) = some '/' := by
  unfold scanStep at h
  repeat' split at h
  all_goals first
    | (injection h with h1; subst h1; simp_all)
    | (injection h)

/-- If the search loop returns an index, some configuration it reaches is an
unescaped `//` outside a string literal, and the result is its position. -/
theorem findSwiftGo_some_hit (text : Str) :
    ∀ (fuel i : Nat) (st : ScanState) (j : Nat),
      findSwiftGo text fuel i st = some j →
      ∃ c, ScanReaches text (i, st) c ∧ c.1 + 1 < text.length ∧ c.2.inString = false ∧
        text.get? c.1 = some '/' ∧ text.get? (c.1 + 1) = some '/' ∧ j = c.1 := by
  intro fuel
  induction fuel with
  | zero =>
    intro i st j h
    exact absurd h (by simp [findSwiftGo])
  | succ fuel ih =>
    intro i st j h
    rw [findSwiftGo] at h
    by_cases hguard : i + 1 < text.length
    · rw [if_pos hguard] at h
      cases hstep : scanStep text i st with
      | inl j₀ =>
        rw [hstep] at h
        injection h with h1
        obtain ⟨hji, hout, hs1, hs2⟩ := scanStep_inl_hit text i st j₀ hstep
        refine ⟨(i, st), Relation.ReflTransGen.refl, hguard, hout, hs1, hs2, ?_⟩
        omega
      | inr n =>
        rw [hstep] at h
        obtain ⟨c, hreach, hc⟩ := ih n.1 n.2 j h
        exact ⟨c, Relation.ReflTransGen.head ⟨hguard, by simpa using hstep⟩ hreach, hc⟩
    · rw [if_neg hguard] at h
      exact absurd h (by simp)

/-- C8: the scanner reports the trailing `//` of
`let s = "http," + "//example.com" + closing quote + " // trailing"` at
index 29 (the one after the closing quote, not the one inside the string
literal at index 13); and on any line with no unescaped `//` outside a string
literal — no configuration the scan reaches before the end of the line is
outside a string and sees `//` — it returns `none`. -/
theorem C8_comment_start_scanner :
    (findSwiftLineCommentStart
      "let s = \"http://example.com\" // trailing".toList = some 29) ∧
    (∀ text : Str,
      (∀ c, ScanReaches text (0, scanInit) c →
        ¬ (c.1 + 1 < text.length ∧ c.2.inString = false ∧
           text.get? c.1 = some '/' ∧ text.get? (c.1 + 1) = some '/')) →
      findSwiftLineCommentStart text = none) := by
  constructor
  · decide
  · intro text hnohit
    cases hres : findSwiftLineCommentStart text with
    | none => rfl
    | some j =>
      exfalso
      obtain ⟨c, hreach, hg, hout, hs1, hs2, -⟩ :=
        findSwiftGo_some_hit text (text.length + 1) 0 scanInit j hres
      exact hnohit c hreach ⟨hg, hout, hs1, hs2⟩

/-- Witness for C8: on a line whose only `//` lies inside a string literal, no
reachable configuration is an out-of-string `//` sighting (established by the
scan analysis), and the theorem then yields the `none` result. -/
theorem C8_comment_start_scanner_witness :
    (∀ c, ScanReaches "let s = \"a // b\"".toList (0, scanInit) c →
      ¬ (c.1 + 1 < ("let s = \"a // b\"".toList : Str).length ∧
         c.2.inString = false ∧
         ("let s = \"a // b\"".toList : Str).get? c.1 = some '/' ∧
         ("let s = \"a // b\"".toList : Str).get? (c.1 + 1) = some '/')) ∧
    findSwiftLineCommentStart "let s = \"a // b\"".toList = none :=
  have hno := findSwiftGo_none_no_hit "let s = \"a // b\"".toList
    ("let s = \"a // b\"".toList.length + 1) 0 scanInit (by omega) (by decide)
  ⟨hno, C8_comment_start_scanner.2 "let s = \"a // b\"".toList hno⟩

end SwiftDocstrings
